import Mathlib

/-!
Verification development for the gulp-bundle-html tag-scanning, inlining,
combining and class-renaming engine.

The JavaScript/TypeScript sources are shallowly embedded over `List Char`
(named `Str` below).  JavaScript strings become `Str`, JavaScript objects
used as string-keyed maps (`MapLike<T>`) become insertion-ordered
association lists, `undefined` becomes `none`, and the JavaScript
truthiness convention (empty string and `undefined` are falsy) is made
explicit by `jsTruthy`/`jsOr`.  Regex scanning is embedded by dedicated
matcher functions that implement, position by position, the leftmost-match
and backtracking behaviour of the concrete regular expressions in
`src/regex.ts`; the generic driver `replaceAll` mirrors
`String.prototype.replace` with a global regex and a function replacer
(`stringReplace` in `src/string-util.ts`), and `scanAll` mirrors the
`stringSearch` exec loop.
-/

/-- A JavaScript string, embedded as its list of characters. -/
abbrev Str : Type := List Char

/-- Character list of a Lean string literal (used to write concrete inputs). -/
def lit (s : String) : Str := s.data

/-- The single-quote character (code point 39). -/
def sqChar : Char := Char.ofNat 39

/-- The double-quote character (code point 34). -/
def dqChar : Char := Char.ofNat 34

/-- JavaScript truthiness of a possibly-undefined string: `undefined` and
the empty string are falsy. -/
def jsTruthy : Option Str → Bool
  | none => false
  | some s => !s.isEmpty

/-- The JavaScript expression `a || b` on possibly-undefined strings. -/
def jsOr (a b : Option Str) : Option Str :=
  if jsTruthy a then a else b

/-- JavaScript whitespace (the ASCII part of the `\s` character class and of
`String.prototype.trim`). -/
def isJsSpace (c : Char) : Bool :=
  c = ' ' || c = '\t' || c = '\n' || c = '\r' || c = Char.ofNat 11 || c = Char.ofNat 12

/-- JavaScript `String.prototype.trim` (ASCII whitespace). -/
def jsTrim (s : Str) : Str :=
  ((s.dropWhile isJsSpace).reverse.dropWhile isJsSpace).reverse

/-- A word character in the sense of the regex classes `[a-z0-9_]` with the
`i` flag, and of the `\b` boundary assertion. -/
def isWordChar (c : Char) : Bool :=
  c.isAlpha || c.isDigit || c = '_'

/-- Case-insensitive comparison of one character against a lower-case
pattern character (the regexes all carry the `i` flag). -/
def matchesCI (pat c : Char) : Bool :=
  c.toLower = pat

/-- Case-insensitively strip the literal `pat` (given in lower case) from the
front of `s`, returning the rest. -/
def dropLitCI : Str → Str → Option Str
  | [], s => some s
  | _ :: _, [] => none
  | p :: ps, c :: cs => if matchesCI p c then dropLitCI ps cs else none

/-- Split a list at the first occurrence of `c`, exclusive on both sides. -/
def splitAtChar (c : Char) : Str → Option (Str × Str)
  | [] => none
  | x :: xs =>
    if x = c then some ([], xs)
    else match splitAtChar c xs with
      | some (a, b) => some (x :: a, b)
      | none => none

/-! ## Insertion-ordered string-keyed maps

`MapLike<T>` objects are embedded as association lists.  Assigning to an
existing key updates it in place (keeping its position), assigning to a new
key appends it; `Object.entries`/`for-in` iterate in that insertion order
(class names are never array-index strings, so the numeric-key special case
of JavaScript property ordering does not arise). -/

/-- Insertion-ordered map: `obj[k] = v` updates an existing binding in
place and appends a new one. -/
def mapInsert {α : Type} : List (Str × α) → Str → α → List (Str × α)
  | [], k, v => [(k, v)]
  | e :: es, k, v => if e.1 = k then (k, v) :: es else e :: mapInsert es k v

/-- Insertion-ordered map: `obj[k]`, `undefined` when absent. -/
def mapLookup {α : Type} (m : List (Str × α)) (k : Str) : Option α :=
  match m.find? (fun e => e.1 = k) with
  | some e => some e.2
  | none => none

/-- The keys of a map, in insertion order. -/
def mapKeys {α : Type} (m : List (Str × α)) : List Str :=
  m.map (fun e => e.1)

/-! ## The identifier generator (`createStringGenerator`, string-util.ts)

The JavaScript generator keeps an array `accum` of one-character strings
`"a"`..`"z"`, most significant first; each `next()` yields `accum.join("")`
and then increments the rightmost digit, carrying to the left and
prepending a fresh `"a"` when every digit overflows past `"z"`.  The digit
`"a" + d` is embedded as the number `d` (`0 ≤ d ≤ 25`); the state is kept
least-significant digit first so that the increment is structural, and is
reversed when rendered. -/

/-- One carry-propagating increment of the digit list, least significant
digit first (`accum[last]` of the source is the head here). -/
def genCarry : List Nat → List Nat
  | [] => [0]
  | d :: rest => if d + 1 ≤ 25 then (d + 1) :: rest else 0 :: genCarry rest

/-- The digit `d` rendered as the character `'a' + d`. -/
def digitChar (d : Nat) : Char := Char.ofNat (97 + d)

/-- The generator state after `n` increments of the fresh state `["a"]`. -/
def genState : Nat → List Nat
  | 0 => [0]
  | n + 1 => genCarry (genState n)

/-- The `n`-th value produced by `createStringGenerator` (the value of the
`n`-th `next()` call on a fresh generator, counting from 0): the state is
rendered most significant digit first, as `accum.join("")` does. -/
def createStringGeneratorValue (n : Nat) : Str :=
  ((genState n).reverse).map digitChar

/-! ## Generator facts -/

/-- All digits of a generator state are in `0..25`. -/
def ValidDigits (l : List Nat) : Prop := ∀ d ∈ l, d ≤ 25

/-- The value of a digit list in bijective base 26, least significant digit
first: it is the rank (from 1) of the rendered word in shortlex order. -/
def genVal : List Nat → Nat
  | [] => 0
  | d :: rest => (d + 1) + 26 * genVal rest

theorem validDigits_genCarry {l : List Nat} (h : ValidDigits l) :
    ValidDigits (genCarry l) := by
  induction l with
  | nil => intro d hd; simp [genCarry] at hd; omega
  | cons x xs ih =>
    intro d hd
    simp only [genCarry] at hd
    by_cases hx : x + 1 ≤ 25
    · simp [hx] at hd
      rcases hd with hd | hd
      · omega
      · exact h d (List.mem_cons_of_mem _ hd)
    · simp [hx] at hd
      rcases hd with hd | hd
      · omega
      · exact ih (fun e he => h e (List.mem_cons_of_mem _ he)) d hd

theorem genVal_genCarry {l : List Nat} (h : ValidDigits l) :
    genVal (genCarry l) = genVal l + 1 := by
  induction l with
  | nil => simp [genCarry, genVal]
  | cons x xs ih =>
    by_cases hx : x + 1 ≤ 25
    · simp [genCarry, hx, genVal]; ring
    · have hx25 : x = 25 := by
        have := h x (List.mem_cons_self x xs)
        omega
      have ihv : genVal (genCarry xs) = genVal xs + 1 :=
        ih (fun e he => h e (List.mem_cons_of_mem _ he))
      simp [genCarry, hx, genVal, ihv, hx25]; ring

theorem validDigits_genState (n : Nat) : ValidDigits (genState n) := by
  induction n with
  | zero => intro d hd; simp [genState] at hd; omega
  | succ n ih => exact validDigits_genCarry ih

theorem genVal_genState (n : Nat) : genVal (genState n) = n + 1 := by
  induction n with
  | zero => simp [genState, genVal]
  | succ n ih => simp [genState, genVal_genCarry (validDigits_genState n), ih]

/-- The least bijective-base-26 value of a digit list of length `k`
(the all-`a` word); `26 * minWordVal k` is the greatest. -/
def minWordVal : Nat → Nat
  | 0 => 0
  | k + 1 => 1 + 26 * minWordVal k

theorem minWordVal_mul25 (k : Nat) : 25 * minWordVal k + 1 = 26 ^ k := by
  induction k with
  | zero => simp [minWordVal]
  | succ k ih => simp [minWordVal, pow_succ]; omega

theorem minWordVal_mono {j k : Nat} (h : j ≤ k) : minWordVal j ≤ minWordVal k := by
  induction k with
  | zero => simp_all
  | succ k ih =>
    rcases Nat.lt_or_ge j (k + 1) with hj | hj
    · have := ih (by omega)
      simp [minWordVal]; omega
    · have : j = k + 1 := by omega
      simp [this]

theorem genVal_lower {l : List Nat} (_ : ValidDigits l) :
    minWordVal l.length ≤ genVal l := by
  induction l with
  | nil => simp [minWordVal, genVal]
  | cons x xs ih =>
    have := ih (fun e he => ‹ValidDigits (x :: xs)› e (List.mem_cons_of_mem _ he))
    simp [minWordVal, genVal]
    omega

theorem genVal_upper {l : List Nat} (h : ValidDigits l) :
    genVal l ≤ 26 * minWordVal l.length := by
  induction l with
  | nil => simp [minWordVal, genVal]
  | cons x xs ih =>
    have hx : x ≤ 25 := h x (List.mem_cons_self x xs)
    have := ih (fun e he => h e (List.mem_cons_of_mem _ he))
    simp [minWordVal, genVal]
    omega

/-- Appending a most-significant digit adds its positional weight. -/
theorem genVal_append_digit (xs : List Nat) (d : Nat) :
    genVal (xs ++ [d]) = genVal xs + (d + 1) * 26 ^ xs.length := by
  induction xs with
  | nil => simp [genVal]
  | cons x t ih => simp [genVal, ih, pow_succ]; ring

/-- Digit lists in most-significant-first order (as rendered) with equal
lengths compare lexicographically exactly as their values do. -/
theorem lex_of_genVal_lt :
    ∀ (l₁ l₂ : List Nat), ValidDigits l₁.reverse → ValidDigits l₂.reverse →
      l₁.length = l₂.length → genVal l₁.reverse < genVal l₂.reverse →
      List.Lex (· < ·) l₁ l₂ := by
  intro l₁
  induction l₁ with
  | nil =>
    intro l₂ _ _ hlen hval
    cases l₂ with
    | nil => simp [genVal] at hval
    | cons b t => simp at hlen
  | cons d₁ t₁ ih =>
    intro l₂ h₁ h₂ hlen hval
    cases l₂ with
    | nil => simp at hlen
    | cons d₂ t₂ =>
      have hlen' : t₁.length = t₂.length := by simpa using hlen
      have hv₁ : genVal ((d₁ :: t₁).reverse) = genVal t₁.reverse + (d₁ + 1) * 26 ^ t₁.length := by
        simp [genVal_append_digit]
      have hv₂ : genVal ((d₂ :: t₂).reverse) = genVal t₂.reverse + (d₂ + 1) * 26 ^ t₂.length := by
        simp [genVal_append_digit]
      have hval₁ : ValidDigits t₁.reverse := by
        intro e he
        exact h₁ e (by simp at he ⊢; exact Or.inl he)
      have hval₂ : ValidDigits t₂.reverse := by
        intro e he
        exact h₂ e (by simp at he ⊢; exact Or.inl he)
      rcases Nat.lt_trichotomy d₁ d₂ with hd | hd | hd
      · exact List.Lex.rel hd
      · subst hd
        apply List.Lex.cons
        apply ih t₂ hval₁ hval₂ hlen'
        rw [hv₁, hv₂, hlen'] at hval
        omega
      · exfalso
        have hub : genVal t₂.reverse ≤ 26 * minWordVal t₂.length := by
          have := genVal_upper hval₂
          simpa using this
        have hlb : minWordVal t₂.length ≤ genVal t₁.reverse := by
          have := genVal_lower hval₁
          simp only [List.length_reverse] at this
          rw [hlen'] at this
          exact this
        have hpow : 25 * minWordVal t₂.length + 1 = 26 ^ t₂.length := minWordVal_mul25 _
        rw [hv₁, hv₂, hlen'] at hval
        have hge : d₂ + 2 ≤ d₁ + 1 := by omega
        have hmul : (d₂ + 2) * 26 ^ t₂.length ≤ (d₁ + 1) * 26 ^ t₂.length :=
          Nat.mul_le_mul_right _ hge
        have hsplit : (d₂ + 2) * 26 ^ t₂.length
            = (d₂ + 1) * 26 ^ t₂.length + 26 ^ t₂.length := by ring
        linarith

/-- Shortlex order on character lists: shorter first, then lexicographic by
code point. -/
def strShortlex (s t : Str) : Prop :=
  s.length < t.length ∨ (s.length = t.length ∧ List.Lex (· < ·) s t)

theorem digitChar_lt_digitChar : ∀ d < 26, ∀ e < 26, d < e → digitChar d < digitChar e := by
  decide

theorem digitChar_inj : ∀ d < 26, ∀ e < 26, digitChar d = digitChar e → d = e := by
  decide

theorem digitChar_range : ∀ d < 26, 'a' ≤ digitChar d ∧ digitChar d ≤ 'z' := by
  decide

theorem lex_map_digitChar {l₁ l₂ : List Nat}
    (h₁ : ∀ d ∈ l₁, d ≤ 25) (h₂ : ∀ d ∈ l₂, d ≤ 25)
    (h : List.Lex (· < ·) l₁ l₂) :
    List.Lex (· < ·) (l₁.map digitChar) (l₂.map digitChar) := by
  induction h with
  | nil => exact List.Lex.nil
  | @cons a t₁ t₂ _ ih =>
    exact List.Lex.cons (ih (fun d hd => h₁ d (List.mem_cons_of_mem _ hd))
      (fun d hd => h₂ d (List.mem_cons_of_mem _ hd)))
  | @rel a t₁ b t₂ hab =>
    apply List.Lex.rel
    exact digitChar_lt_digitChar a
      (by have := h₁ a (List.mem_cons_self _ _); omega) b
      (by have := h₂ b (List.mem_cons_self _ _); omega) hab

theorem genState_val_strict_mono {m n : Nat} (h : m < n) :
    genVal (genState m) < genVal (genState n) := by
  rw [genVal_genState, genVal_genState]; omega

/-- Strict shortlex growth of the rendered generator values. -/
theorem createStringGeneratorValue_strict_mono {m n : Nat} (h : m < n) :
    strShortlex (createStringGeneratorValue m) (createStringGeneratorValue n) := by
  have hvm : ValidDigits (genState m) := validDigits_genState m
  have hvn : ValidDigits (genState n) := validDigits_genState n
  have hval : genVal (genState m) < genVal (genState n) := genState_val_strict_mono h
  rcases Nat.lt_trichotomy (genState m).length (genState n).length with hl | hl | hl
  · left
    simpa [createStringGeneratorValue] using hl
  · refine Or.inr ⟨by simp [createStringGeneratorValue, hl], ?_⟩
    apply lex_map_digitChar
    · intro d hd; exact hvm d (by simpa using hd)
    · intro d hd; exact hvn d (by simpa using hd)
    · apply lex_of_genVal_lt
      · simpa using hvm
      · simpa using hvn
      · simpa using hl
      · simpa using hval
  · exfalso
    have hub : genVal (genState n) ≤ 26 * minWordVal (genState n).length :=
      genVal_upper hvn
    have hlb : minWordVal (genState m).length ≤ genVal (genState m) :=
      genVal_lower hvm
    have h1 : 26 * minWordVal (genState n).length < minWordVal ((genState n).length + 1) := by
      simp only [minWordVal]
      omega
    have h4 : minWordVal ((genState n).length + 1) ≤ minWordVal (genState m).length :=
      minWordVal_mono (by omega)
    omega

theorem map_digitChar_inj : ∀ (a b : List Nat), (∀ d ∈ a, d ≤ 25) → (∀ d ∈ b, d ≤ 25) →
    a.map digitChar = b.map digitChar → a = b := by
  intro a
  induction a with
  | nil => intro b _ _ hmap; cases b <;> simp_all
  | cons x xs ih =>
    intro b hva hvb hmap
    cases b with
    | nil => simp at hmap
    | cons y ys =>
      simp only [List.map_cons, List.cons.injEq] at hmap
      have hxy : x = y := digitChar_inj x
        (by have := hva x (List.mem_cons_self _ _); omega) y
        (by have := hvb y (List.mem_cons_self _ _); omega) hmap.1
      have hxs : xs = ys := ih ys (fun d hd => hva d (List.mem_cons_of_mem _ hd))
        (fun d hd => hvb d (List.mem_cons_of_mem _ hd)) hmap.2
      simp [hxy, hxs]

theorem createStringGeneratorValue_inj {m n : Nat}
    (h : createStringGeneratorValue m = createStringGeneratorValue n) : m = n := by
  have hrev : (genState m).reverse = (genState n).reverse := by
    apply map_digitChar_inj
    · intro d hd; exact validDigits_genState m d (by simpa using hd)
    · intro d hd; exact validDigits_genState n d (by simpa using hd)
    · exact h
  have hstate : genState m = genState n := by
    simpa using congrArg List.reverse hrev
  have hval := congrArg genVal hstate
  rw [genVal_genState, genVal_genState] at hval
  omega

/-- C7: the identifier generator produces, over the alphabet `a`–`z`, a
sequence that is strictly increasing in shortlex order (first by length,
then lexicographically) and hence repetition-free; its first 28 values are
`a, b, …, z, aa, ab`, and a fresh generator instance restarts from `a`
(value number 0 is always `a`). -/
theorem c7_createStringGenerator_spec :
    createStringGeneratorValue 0 = lit "a" ∧
    (List.range 28).map createStringGeneratorValue =
      [lit "a", lit "b", lit "c", lit "d", lit "e", lit "f", lit "g", lit "h",
       lit "i", lit "j", lit "k", lit "l", lit "m", lit "n", lit "o", lit "p",
       lit "q", lit "r", lit "s", lit "t", lit "u", lit "v", lit "w", lit "x",
       lit "y", lit "z", lit "aa", lit "ab"] ∧
    (∀ n : Nat, ∀ c ∈ createStringGeneratorValue n, 'a' ≤ c ∧ c ≤ 'z') ∧
    (∀ m n : Nat, m < n →
      strShortlex (createStringGeneratorValue m) (createStringGeneratorValue n)) ∧
    (∀ m n : Nat, createStringGeneratorValue m = createStringGeneratorValue n → m = n) := by
  refine ⟨by decide, by decide, ?_, ?_, ?_⟩
  · intro n c hc
    simp only [createStringGeneratorValue, List.mem_map] at hc
    obtain ⟨d, hd, rfl⟩ := hc
    have hd25 : d ≤ 25 := validDigits_genState n d (by simpa using hd)
    exact digitChar_range d (by omega)
  · intro m n h
    exact createStringGeneratorValue_strict_mono h
  · intro m n h
    exact createStringGeneratorValue_inj h

/-- Witness for C7: the strict shortlex ordering instantiated at the
concrete indices 25 and 26 (`z` before `aa`). -/
theorem c7_createStringGenerator_spec_witness :
    strShortlex (lit "z") (lit "aa") := by
  have h := c7_createStringGenerator_spec.2.2.2.1 25 26 (by omega)
  have h25 : createStringGeneratorValue 25 = lit "z" := by decide
  have h26 : createStringGeneratorValue 26 = lit "aa" := by decide
  rwa [h25, h26] at h

/-! ## Regex scanning drivers

`jsReplace` embeds `String.prototype.replace` with a global regex and a
function replacer (`stringReplace` of string-util.ts); `jsScan` embeds the
`stringSearch` exec loop; `jsReplaceSt` is `jsReplace` for replacers that
close over mutable locals (the combiners).  `tryAt` attempts a match at the
current position; it receives the character just before that position,
which the attribute regexes inspect through `\b` and `(?<!<)`.  Fuel is the
remaining string length; every match consumes at least one character, so
the fuel never runs out. -/

def jsReplaceAux {α : Type} (tryAt : Option Char → Str → Option (Str × α × Str))
    (repl : Str → α → Str) : Nat → Option Char → Str → Str
  | 0, _, s => s
  | fuel + 1, prev, s =>
    match tryAt prev s with
    | some (full, a, rest) => repl full a ++ jsReplaceAux tryAt repl fuel full.getLast? rest
    | none =>
      match s with
      | [] => []
      | c :: cs => c :: jsReplaceAux tryAt repl fuel (some c) cs

def jsReplace {α : Type} (tryAt : Option Char → Str → Option (Str × α × Str))
    (repl : Str → α → Str) (s : Str) : Str :=
  jsReplaceAux tryAt repl (s.length + 1) none s

def jsScanAux {α : Type} (tryAt : Option Char → Str → Option (Str × α × Str)) :
    Nat → Option Char → Str → List (Str × α)
  | 0, _, _ => []
  | fuel + 1, prev, s =>
    match tryAt prev s with
    | some (full, a, rest) => (full, a) :: jsScanAux tryAt fuel full.getLast? rest
    | none =>
      match s with
      | [] => []
      | c :: cs => jsScanAux tryAt fuel (some c) cs

def jsScan {α : Type} (tryAt : Option Char → Str → Option (Str × α × Str)) (s : Str) :
    List (Str × α) :=
  jsScanAux tryAt (s.length + 1) none s

def jsReplaceStAux {α σ : Type} (tryAt : Option Char → Str → Option (Str × α × Str))
    (repl : σ → Str → α → Str × σ) : Nat → Option Char → σ → Str → Str × σ
  | 0, _, st, s => (s, st)
  | fuel + 1, prev, st, s =>
    match tryAt prev s with
    | some (full, a, rest) =>
      let (r, st') := repl st full a
      let (out, st'') := jsReplaceStAux tryAt repl fuel full.getLast? st' rest
      (r ++ out, st'')
    | none =>
      match s with
      | [] => ([], st)
      | c :: cs =>
        let (out, st') := jsReplaceStAux tryAt repl fuel (some c) st cs
        (c :: out, st')

def jsReplaceSt {α σ : Type} (tryAt : Option Char → Str → Option (Str × α × Str))
    (repl : σ → Str → α → Str × σ) (st : σ) (s : Str) : Str × σ :=
  jsReplaceStAux tryAt repl (s.length + 1) none st s

/-! ## First-occurrence string replacement

`html.replace(PLACEHOLDER, output)` replaces the first occurrence of the
plain-string pattern and runs the ECMAScript GetSubstitution rules on the
replacement text (`$$`, `$&`, the before-match and after-match inserts). -/

/-- Index of the first occurrence of `pat` in `s`. -/
def findSubIdx (pat : Str) : Str → Option Nat
  | [] => if pat.isEmpty then some 0 else none
  | c :: cs =>
    if pat.isPrefixOf (c :: cs) then some 0
    else match findSubIdx pat cs with
      | some i => some (i + 1)
      | none => none

/-- GetSubstitution on the replacement text of a string-pattern replace:
`$$` is a literal dollar, `$&` inserts the matched text, a dollar followed
by the backquote character (code 96) inserts the text before the match, and
`$` followed by a single quote inserts the text after the match; anything
else is literal. -/
def getSubstitutionAux (matched before after : Str) : Str → Str
  | [] => []
  | '$' :: c :: rest =>
    if c = '$' then '$' :: getSubstitutionAux matched before after rest
    else if c = '&' then matched ++ getSubstitutionAux matched before after rest
    else if c = Char.ofNat 96 then before ++ getSubstitutionAux matched before after rest
    else if c = sqChar then after ++ getSubstitutionAux matched before after rest
    else '$' :: c :: getSubstitutionAux matched before after rest
  | c :: rest => c :: getSubstitutionAux matched before after rest

/-- JavaScript `s.replace(pat, repl)` with plain-string `pat` and `repl`. -/
def jsReplaceFirstStr (pat repl s : Str) : Str :=
  match findSubIdx pat s with
  | none => s
  | some i =>
    let before := s.take i
    let after := s.drop (i + pat.length)
    before ++ getSubstitutionAux pat before after repl ++ after

/-! ## The tag and attribute matchers (regex.ts) -/

/-- A match of `LINK_TAG_REGEX = /<link([^\/>]*)\/?>/ig` at the current
position: after the literal `<link` the character class runs up to the
first `/` or `>`, and the match succeeds only if the run is followed by
`>` or by `/>`. -/
def linkTryAt (_ : Option Char) (s : Str) : Option (Str × Str × Str) :=
  match dropLitCI (lit "<link") s with
  | none => none
  | some r1 =>
    let run := r1.takeWhile (fun c => c ≠ '/' && c ≠ '>')
    let r2 := r1.dropWhile (fun c => c ≠ '/' && c ≠ '>')
    match r2 with
    | '>' :: r3 => some (s.take (5 + run.length + 1), run, r3)
    | '/' :: '>' :: r3 => some (s.take (5 + run.length + 2), run, r3)
    | _ => none

/-- Length of a match of `<\/script[^>]*>` at the current position. -/
def scriptCloseLen (s : Str) : Option Nat :=
  match dropLitCI (lit "</script") s with
  | none => none
  | some r =>
    let run := r.takeWhile (fun c => c ≠ '>')
    match r.dropWhile (fun c => c ≠ '>') with
    | _ :: _ => some (8 + run.length + 1)
    | [] => none

/-- The lazy `.*?<\/script[^>]*>` search: the closing tag is tried at each
position before the dot (which matches no line terminator) consumes one
more character; returns the total number of characters consumed. -/
def scriptFindClose : Str → Option Nat
  | [] => none
  | c :: cs =>
    match scriptCloseLen (c :: cs) with
    | some k => some k
    | none =>
      if c = '\n' || c = '\r' then none
      else match scriptFindClose cs with
        | some k => some (k + 1)
        | none => none

/-- A match of `SCRIPT_TAG_REGEX =
`/<script([^>]*)\/>|<script([^>]*)>.*?<\/script[^>]*>/ig` at the current
position.  The self-closing alternative is tried first; with backtracking
it succeeds exactly when the character before the first `>` after
`<script` is a `/`.  Otherwise the container alternative scans lazily for
the closing tag.  The payload is the pair of capture groups
(`attribShort`, `attribLong`), the unmatched one being `undefined`. -/
def scriptTryAt (_ : Option Char) (s : Str) : Option (Str × (Option Str × Option Str) × Str) :=
  match dropLitCI (lit "<script") s with
  | none => none
  | some r1 =>
    let run := r1.takeWhile (fun c => c ≠ '>')
    let r2 := r1.dropWhile (fun c => c ≠ '>')
    match r2 with
    | '>' :: r3 =>
      if run.getLast? = some '/' then
        some (s.take (7 + run.length + 1), (some run.dropLast, none), r3)
      else
        match scriptFindClose r3 with
        | some k =>
          let total := 7 + run.length + 1 + k
          some (s.take total, (none, some run), s.drop total)
        | none => none
    | _ => none

/-- The trailing `\s*(?:=\s*(?:'([^']*)'|"([^"]*)"))?` of the attribute
regexes, applied after the attribute name: returns the single-quoted
group, the double-quoted group, the characters consumed, and the rest.
When `=` is present but no well-formed quoted value follows, the optional
group matches empty (only the name and its trailing whitespace are
consumed). -/
def parseAttribValue (s : Str) : Option Str × Option Str × Str × Str :=
  let ws1 := s.takeWhile isJsSpace
  let r2 := s.dropWhile isJsSpace
  match r2 with
  | '=' :: r3 =>
    let ws2 := r3.takeWhile isJsSpace
    let r4 := r3.dropWhile isJsSpace
    match r4 with
    | q :: r5 =>
      if q = sqChar then
        match splitAtChar sqChar r5 with
        | some (v, r6) => (some v, none, ws1 ++ '=' :: ws2 ++ q :: v ++ [q], r6)
        | none => (none, none, ws1, r2)
      else if q = dqChar then
        match splitAtChar dqChar r5 with
        | some (v, r6) => (none, some v, ws1 ++ '=' :: ws2 ++ q :: v ++ [q], r6)
        | none => (none, none, ws1, r2)
      else (none, none, ws1, r2)
    | [] => (none, none, ws1, r2)
  | _ => (none, none, ws1, r2)

/-- A match of `XML_ATTRIB_REGEX =
`/(?<!<)\b([a-z0-9_]+)\s*(?:=\s*(?:'([^']*)'|"([^"]*)"))?/ig` at the
current position: the name is a maximal run of word characters whose
preceding character is neither a word character nor `<`. -/
def xmlAttribTryAt (prev : Option Char) (s : Str) :
    Option (Str × (Str × Option Str × Option Str) × Str) :=
  match s with
  | [] => none
  | c :: _ =>
    let startOk := isWordChar c && (match prev with
      | none => true
      | some p => !isWordChar p && p ≠ '<')
    if startOk then
      let name := s.takeWhile isWordChar
      let r1 := s.dropWhile isWordChar
      let (sq, dq, consumed, rest) := parseAttribValue r1
      some (name ++ consumed, (name, sq, dq), rest)
    else none

/-- All matches of `XML_ATTRIB_REGEX` in exec-loop order. -/
def xmlAttribMatches (s : Str) : List (Str × Option Str × Option Str) :=
  (jsScan xmlAttribTryAt s).map (fun m => m.2)

/-- A match of `HTML_CLASS_REGEX =
`/\b(class)\s*(?:=\s*(?:'([^']*)'|"([^"]*)"))?/ig` at the current position:
the literal `class` (case-insensitive) preceded by a non-word character,
then the same optional quoted value as the attribute regex. -/
def htmlClassTryAt (prev : Option Char) (s : Str) :
    Option (Str × (Option Str × Option Str) × Str) :=
  let bOk := match prev with
    | none => true
    | some p => !isWordChar p
  if bOk then
    match dropLitCI (lit "class") s with
    | some r1 =>
      let name := s.take 5
      let (sq, dq, consumed, rest) := parseAttribValue r1
      some (name ++ consumed, (sq, dq), rest)
    | none => none
  else none

/-- A match of `CSS_CLASS_REGEX = /\.(-?[_a-z][_a-z0-9-]*)\b/ig` at the
current position.  The greedy name run backtracks over trailing hyphens so
that the final `\b` holds (the character class is the word characters plus
`-`, so after the maximal run the boundary holds exactly when the last
matched character is a word character). -/
def cssClassTryAt (_ : Option Char) (s : Str) : Option (Str × Str × Str) :=
  match s with
  | '.' :: r1 =>
    let dash : Str := match r1 with
      | '-' :: _ => ['-']
      | _ => []
    let r2 := r1.drop dash.length
    match r2 with
    | c :: r3 =>
      if c.isAlpha || c = '_' then
        let run := r3.takeWhile (fun ch => ch.isAlpha || ch.isDigit || ch = '_' || ch = '-')
        let r4 := r3.dropWhile (fun ch => ch.isAlpha || ch.isDigit || ch = '_' || ch = '-')
        let core := dash ++ c :: run
        let dropN := (core.reverse.takeWhile (fun ch => ch = '-')).length
        let name := core.take (core.length - dropN)
        some ('.' :: name, name, core.drop (core.length - dropN) ++ r4)
      else none
    | [] => none
  | _ => none

/-- A match of `JS_CLASS_REGEX = /cssClassName\(([^\)]+)\)/ig` at the
current position. -/
def jsClassTryAt (_ : Option Char) (s : Str) : Option (Str × Str × Str) :=
  match dropLitCI (lit "cssclassname(") s with
  | none => none
  | some r1 =>
    let run := r1.takeWhile (fun c => c ≠ ')')
    let r2 := r1.dropWhile (fun c => c ≠ ')')
    if run.isEmpty then none
    else match r2 with
      | ')' :: r3 => some (s.take (13 + run.length + 1), run, r3)
      | _ => none

/-! ## Reference resolution (path.resolve and ABSOLUTE_URL_REGEX) -/

/-- The test `ABSOLUTE_URL_REGEX = /^(?:[a-z]+:)?\/\//i`. -/
def absoluteUrlTest (v : Str) : Bool :=
  let letters := v.takeWhile (fun c => c.isAlpha)
  let rest := v.dropWhile (fun c => c.isAlpha)
  (match v with
    | '/' :: '/' :: _ => true
    | _ => false) ||
  (!letters.isEmpty && (match rest with
    | ':' :: '/' :: '/' :: _ => true
    | _ => false))

/-- Split a path on `/` separators, keeping empty components. -/
def splitSlash (s : Str) : List Str :=
  s.foldr (fun c acc =>
    if c = '/' then [] :: acc
    else match acc with
      | h :: t => (c :: h) :: t
      | [] => [[c]]) [[]]

/-- Normalize path components: drop empty and `.` components, resolve `..`
against the accumulated stack (kept when `allowUp` and nothing to pop). -/
def pathNormParts (allowUp : Bool) (comps : List Str) : List Str :=
  comps.foldl (fun acc comp =>
    if comp = [] || comp = ['.'] then acc
    else if comp = ['.', '.'] then
      match acc.getLast? with
      | some last => if last = ['.', '.'] then acc ++ [comp] else acc.dropLast
      | none => if allowUp then [comp] else []
    else acc ++ [comp]) []

/-- Node's posix `path.resolve(base, v)` for the two-argument call: an
absolute `v` wins, otherwise `v` is joined onto `base`, and the result is
normalized.  (When both arguments are relative Node would prepend the
process working directory; this embedding resolves against the relative
base itself — the claims only use absolute bases, for which the embedding
agrees with Node.) -/
def pathResolve (base v : Str) : Str :=
  let joined : Str := match v with
    | '/' :: _ => v
    | _ => base ++ '/' :: v
  let isAbs : Bool := match joined with
    | '/' :: _ => true
    | _ => false
  let parts := pathNormParts (!isAbs) (splitSlash joined)
  if isAbs then '/' :: List.intercalate ['/'] parts
  else if parts.isEmpty then ['.'] else List.intercalate ['/'] parts

/-- The argument conditioning `value.startsWith("/") ? value.slice(1) : value`. -/
def stripSlash (v : Str) : Str :=
  match v with
  | '/' :: t => t
  | _ => v

/-! ## Shared attribute-value idioms of the bundlers -/

/-- The idiom `(sQuoteValue || dQuoteValue || "").trim()`. -/
def attribValueOf (sq dq : Option Str) : Str :=
  jsTrim ((jsOr sq dq).getD [])

/-- The idiom `attribShort || attribLong` handed to a further `regex.exec`:
when both groups are falsy the result is `undefined`, which `exec`
stringifies to the text `undefined`. -/
def attributesOfRaw (g1 g2 : Option Str) : Str :=
  match jsOr g1 g2 with
  | some s => s
  | none => lit "undefined"

/-- The idiom `(selfClosingAttribs || xmlAttribs || "").trim()`. -/
def attributesOfTrim (g1 g2 : Option Str) : Str :=
  jsTrim ((jsOr g1 g2).getD [])

/-- Modelled from the spec: `createXmlAttrib` is imported from
./string-util by bundle-css.ts and bundle-js.ts but is missing from the
available sources.  Section 4.4 of the spec says every kept attribute is
serialized as `name="value"`, or as the bare `name` when the value was
boolean-absent; the serialized attributes are joined with the empty string
directly after the tag name (the repository test expects `<style>` for an
attribute-free tag), so each serialized attribute carries its own leading
space. -/
def createXmlAttrib (e : Str × Option Str) : Str :=
  match e.2 with
  | some v => ' ' :: (e.1 ++ '=' :: dqChar :: (v ++ [dqChar]))
  | none => ' ' :: e.1

/-! ## bundle-css.ts (the version of part_002 lines 57–185, with
`LINK_TAG_REGEX` and the `isCss` helper) -/

/-- The `isCss` helper: scans the attribute substring and records, for each
`rel` attribute, whether its trimmed value is exactly `stylesheet`.  The
callback's `return true` ("stop early") is discarded by `stringSearch`, so
scanning continues and the last `rel` attribute wins. -/
def isCss (attributes : Str) : Bool :=
  (xmlAttribMatches attributes).foldl (fun acc m =>
    if m.1 = lit "rel" then decide (attribValueOf m.2.1 m.2.2 = lit "stylesheet")
    else acc) false

/-- One step of the attribute loop of `bundleCss`/`combineCss`: `href`
resolves the reference and fetches `cssFiles[filePath]` (possibly
`undefined`), `rel` and `type` are dropped, everything else is stored in
`outputAttributes` as `sQuoteValue || dQuoteValue` (possibly `undefined`). -/
def cssAttribFold (cssFiles : List (Str × Str)) (baseUrl : Str)
    (st : List (Str × Option Str) × Option Str)
    (m : Str × Option Str × Option Str) : List (Str × Option Str) × Option Str :=
  let value := attribValueOf m.2.1 m.2.2
  if m.1 = lit "href" then
    (st.1, mapLookup cssFiles (pathResolve baseUrl (stripSlash value)))
  else if m.1 = lit "rel" || m.1 = lit "type" then st
  else (mapInsert st.1 m.1 (jsOr m.2.1 m.2.2), st.2)

/-- The inline tag `<style ...>contents</style>` built by the css bundler. -/
def styleTagOf (oa : List (Str × Option Str)) (contents : Str) : Str :=
  lit "<style" ++ (oa.map createXmlAttrib).flatten ++ '>' :: (contents ++ lit "</style>")

/-- The replacer of `bundleCss`.  For a tag that is not a stylesheet link
the source executes a bare `return;` inside the `String.replace` callback;
the resulting `undefined` is stringified by `String.replace`, so the tag is
replaced by the text `undefined`.  The later `if (!isCss) return tagMatch;`
tests the function object `isCss`, which is always truthy, so that branch
is dead and is not modelled. -/
def bundleCssReplacer (cssFiles : List (Str × Str)) (baseUrl : Str)
    (tagMatch attributes : Str) : Str :=
  if !isCss attributes then lit "undefined"
  else
    let (oa, contents) := (xmlAttribMatches attributes).foldl
      (cssAttribFold cssFiles baseUrl) ([], some [])
    if jsTruthy contents then styleTagOf oa (contents.getD [])
    else tagMatch

/-- `bundleCss(html, cssFiles, baseUrl)` of bundle-css.ts. -/
def bundleCss (html : Str) (cssFiles : List (Str × Str)) (baseUrl : Str) : Str :=
  jsReplace linkTryAt (fun tagMatch attributes =>
    bundleCssReplacer cssFiles baseUrl tagMatch attributes) html

/-- The fixed placeholder `"<$STYLE$>"` of `combineCss`. -/
def placeholderStyle : Str := lit "<$STYLE$>"

/-- `combineCss(html, cssFiles, baseUrl)` of bundle-css.ts: the shared
`outputAttributes`/`outputContents`/`first` locals become explicit state;
the first qualifying tag becomes the placeholder, later ones become empty
text, and a final plain-string replace substitutes the assembled
`<style ...>` tag for the first occurrence of the placeholder.  A
non-stylesheet link again hits the bare `return;` and becomes the text
`undefined`. -/
def combineCss (html : Str) (cssFiles : List (Str × Str)) (baseUrl : Str) : Str :=
  let step : (Bool × List Str × List (Str × Option Str)) → Str → Str →
      Str × (Bool × List Str × List (Str × Option Str)) := fun st tagMatch attributes =>
    if !isCss attributes then (lit "undefined", st)
    else
      let (oa, contents) := (xmlAttribMatches attributes).foldl
        (cssAttribFold cssFiles baseUrl) (st.2.2, some [])
      if jsTruthy contents then
        if st.1 then (placeholderStyle, (false, st.2.1 ++ [contents.getD []], oa))
        else ([], (false, st.2.1 ++ [contents.getD []], oa))
      else (tagMatch, (st.1, st.2.1, oa))
  let (html', st) := jsReplaceSt linkTryAt step (true, [], []) html
  let output := styleTagOf st.2.2 st.2.1.flatten
  jsReplaceFirstStr placeholderStyle output html'

/-! ## bundle-js.ts -/

/-- One step of the attribute loop of `bundleJs`/`combineJs`: `src`
resolves the reference and fetches `jsFiles[filePath]`, everything else is
stored in `outputAttributes`. -/
def jsAttribFold (jsFiles : List (Str × Str)) (baseUrl : Str)
    (st : List (Str × Option Str) × Option Str)
    (m : Str × Option Str × Option Str) : List (Str × Option Str) × Option Str :=
  let value := attribValueOf m.2.1 m.2.2
  if m.1 = lit "src" then
    (st.1, mapLookup jsFiles (pathResolve baseUrl (stripSlash value)))
  else (mapInsert st.1 m.1 (jsOr m.2.1 m.2.2), st.2)

/-- The inline tag `<script ...>contents</script>` built by the js bundler. -/
def scriptTagOf (oa : List (Str × Option Str)) (contents : Str) : Str :=
  lit "<script" ++ (oa.map createXmlAttrib).flatten ++ '>' :: (contents ++ lit "</script>")

/-- The replacer of `bundleJs`. -/
def bundleJsReplacer (jsFiles : List (Str × Str)) (baseUrl : Str)
    (tagMatch : Str) (g : Option Str × Option Str) : Str :=
  let attributes := attributesOfTrim g.1 g.2
  let (oa, contents) := (xmlAttribMatches attributes).foldl
    (jsAttribFold jsFiles baseUrl) ([], some [])
  if jsTruthy contents then scriptTagOf oa (contents.getD [])
  else tagMatch

/-- `bundleJs(html, jsFiles, baseUrl)` of bundle-js.ts. -/
def bundleJs (html : Str) (jsFiles : List (Str × Str)) (baseUrl : Str) : Str :=
  jsReplace scriptTryAt (fun tagMatch g => bundleJsReplacer jsFiles baseUrl tagMatch g) html

/-- The fixed placeholder `"<$SCRIPT$>"` of `combineJs`. -/
def placeholderScript : Str := lit "<$SCRIPT$>"

/-- `combineJs(html, jsFiles, baseUrl)` of bundle-js.ts, with the shared
`outputAttributes`/`outputContents`/`first` locals as explicit state. -/
def combineJs (html : Str) (jsFiles : List (Str × Str)) (baseUrl : Str) : Str :=
  let step : (Bool × List Str × List (Str × Option Str)) → Str →
      (Option Str × Option Str) →
      Str × (Bool × List Str × List (Str × Option Str)) := fun st tagMatch g =>
    let attributes := attributesOfTrim g.1 g.2
    let (oa, contents) := (xmlAttribMatches attributes).foldl
      (jsAttribFold jsFiles baseUrl) (st.2.2, some [])
    if jsTruthy contents then
      if st.1 then (placeholderScript, (false, st.2.1 ++ [contents.getD []], oa))
      else ([], (false, st.2.1 ++ [contents.getD []], oa))
    else (tagMatch, (st.1, st.2.1, oa))
  let (html', st) := jsReplaceSt scriptTryAt step (true, [], []) html
  let output := scriptTagOf st.2.2 st.2.1.flatten
  jsReplaceFirstStr placeholderScript output html'

/-! ## The preparation passes (bundleJsPrep, bundleCssPrep)

Each prep scans the document for qualifying references and pushes one
`fs.readFile(filePath).then(contents => files[filePath] = contents)` per
reference; `Promise.all` then awaits them.  The file system is embedded as
a finite lookup `Str → Option Str`; the reads are replayed in scan order, a
missing file makes the whole prep fail with that path (the rejection of
`Promise.all`), and a successful prep returns the filled asset map. -/

/-- The reference requests contributed by one script tag's attribute
substring: one resolved path per `src` attribute whose trimmed value is
non-empty and not an absolute URL. -/
def tagSrcRequests (baseUrl attributes : Str) : List Str :=
  (xmlAttribMatches attributes).foldl (fun acc m =>
    if m.1 = lit "src" then
      let value := attribValueOf m.2.1 m.2.2
      if !value.isEmpty && !absoluteUrlTest value then
        acc ++ [pathResolve baseUrl (stripSlash value)]
      else acc
    else acc) []

/-- The reference requests contributed by one link tag's attribute
substring: one resolved path per qualifying `href` attribute. -/
def tagHrefRequests (baseUrl attributes : Str) : List Str :=
  (xmlAttribMatches attributes).foldl (fun acc m =>
    if m.1 = lit "href" then
      let value := attribValueOf m.2.1 m.2.2
      if !value.isEmpty && !absoluteUrlTest value then
        acc ++ [pathResolve baseUrl (stripSlash value)]
      else acc
    else acc) []

/-- All script-tag matches of the document, in document order. -/
def scriptMatches (html : Str) : List (Str × Option Str × Option Str) :=
  jsScan scriptTryAt html

/-- All link-tag matches of the document, in document order. -/
def linkMatches (html : Str) : List (Str × Str) :=
  jsScan linkTryAt html

/-- The read requests issued by `bundleJsPrep`, in issue order: one per
qualifying `src` reference of each script tag (not deduplicated). -/
def bundleJsPrepRequests (html baseUrl : Str) : List Str :=
  (scriptMatches html).foldl (fun acc m =>
    acc ++ tagSrcRequests baseUrl (attributesOfRaw m.2.1 m.2.2)) []

/-- The read requests issued by `bundleCssPrep` (part_002 lines 63–89):
link tags whose attributes fail `isCss` are skipped before the `href`
scan. -/
def bundleCssPrepRequests (html baseUrl : Str) : List Str :=
  (linkMatches html).foldl (fun acc m =>
    let attributes := attributesOfRaw (some m.2) none
    if !isCss attributes then acc
    else acc ++ tagHrefRequests baseUrl attributes) []

/-- Replay the issued reads against the file system: each successful read
stores its contents under its path, the first missing file rejects the
whole batch with that path. -/
def loadAll (fs : Str → Option Str) : List Str → List (Str × Str) →
    Except Str (List (Str × Str))
  | [], m => .ok m
  | p :: rest, m =>
    match fs p with
    | some c => loadAll fs rest (mapInsert m p c)
    | none => .error p

/-- `bundleJsPrep(html, jsFiles, baseUrl)` over the file system `fs`. -/
def bundleJsPrep (fs : Str → Option Str) (html : Str) (jsFiles : List (Str × Str))
    (baseUrl : Str) : Except Str (List (Str × Str)) :=
  loadAll fs (bundleJsPrepRequests html baseUrl) jsFiles

/-- `bundleCssPrep(html, cssFiles, baseUrl)` over the file system `fs`. -/
def bundleCssPrep (fs : Str → Option Str) (html : Str) (cssFiles : List (Str × Str))
    (baseUrl : Str) : Except Str (List (Str × Str)) :=
  loadAll fs (bundleCssPrepRequests html baseUrl) cssFiles

/-! ## minify-class.ts (part_001) -/

/-- `addCssClass` of `minifyCssClasses`: whitelist entries are never
inserted; otherwise the usage count is incremented or initialized to 1. -/
def addCssClass (whitelist : List Str) (usageCounts : List (Str × Nat))
    (className : Str) : List (Str × Nat) :=
  if className ∈ whitelist then usageCounts
  else match mapLookup usageCounts className with
    | some n => mapInsert usageCounts className (n + 1)
    | none => mapInsert usageCounts className 1

/-- `WS_REGEX` split of a class attribute value, as
`String.prototype.split(/\s+/)`: the empty string yields `[""]`, and a
trailing run of whitespace yields a trailing empty token.  Fuel-driven; the
fuel is the string length plus one, which the recursion never exhausts. -/
def jsSplitWsAux : Nat → Str → List Str
  | 0, s => [s]
  | fuel + 1, s =>
    let tok := s.takeWhile (fun c => !isJsSpace c)
    let rest := s.dropWhile (fun c => !isJsSpace c)
    match rest with
    | [] => [tok]
    | _ :: _ => tok :: jsSplitWsAux fuel (rest.dropWhile isJsSpace)

/-- JavaScript `s.split(/\s+/)`. -/
def jsSplitWs (s : Str) : List Str :=
  jsSplitWsAux (s.length + 1) s

/-- All `HTML_CLASS_REGEX` matches of the document (the quoted groups). -/
def htmlClassMatches (html : Str) : List (Option Str × Option Str) :=
  (jsScan htmlClassTryAt html).map (fun m => m.2)

/-- All `JS_CLASS_REGEX` matches of a text (the raw argument between the
parentheses of each `cssClassName(...)` call). -/
def jsClassMatches (s : Str) : List Str :=
  (jsScan jsClassTryAt s).map (fun m => m.2)

/-- All `CSS_CLASS_REGEX` matches of a stylesheet (the class names,
without the leading dot). -/
def cssClassMatches (s : Str) : List Str :=
  (jsScan cssClassTryAt s).map (fun m => m.2)

/-- `parseCssClassName`: trim, and strip one leading and one trailing
character when the argument is quoted. -/
def parseCssClassName (cssClassName : Str) : Str :=
  let t := jsTrim cssClassName
  match t with
  | c :: _ => if c = sqChar || c = dqChar then (t.drop 1).dropLast else t
  | [] => t

/-- Every class-name occurrence seen by the counting phase of
`minifyCssClasses`, in scan order: HTML class attributes (token lists in
match order), `cssClassName` calls in the HTML, then each CSS asset, then
each JS asset. -/
def collectNames (html : Str) (cssFiles jsFiles : List (Str × Str)) : List Str :=
  ((htmlClassMatches html).foldl (fun acc m =>
      acc ++ jsSplitWs (jsTrim ((jsOr m.1 m.2).getD []))) [])
  ++ (jsClassMatches html).map parseCssClassName
  ++ (cssFiles.foldl (fun acc f => acc ++ cssClassMatches f.2) [])
  ++ (jsFiles.foldl (fun acc f => acc ++ (jsClassMatches f.2).map parseCssClassName) [])

/-- The Usage Count Table of one `minifyCssClasses` invocation. -/
def minifyUsageCounts (html : Str) (cssFiles jsFiles : List (Str × Str))
    (whitelist : List Str) : List (Str × Nat) :=
  (collectNames html cssFiles jsFiles).foldl (addCssClass whitelist) []

/-- Stable insertion of one entry into a descending-count list: the entry
goes after every element whose count is greater than or equal to its own. -/
def sortInsertDesc (sorted : List (Str × Nat)) (e : Str × Nat) : List (Str × Nat) :=
  match sorted with
  | [] => [e]
  | x :: xs => if x.2 ≥ e.2 then x :: sortInsertDesc xs e else e :: x :: xs

/-- `[...Object.entries(usageCounts)].sort((a, b) => b[1] - a[1])`:
ECMAScript requires `Array.prototype.sort` to be stable, so the result is
the unique stable descending-by-count ordering of the entries, embedded
here as a stable insertion sort. -/
def orderedUsageCount (counts : List (Str × Nat)) : List (Str × Nat) :=
  counts.foldl sortInsertDesc []

/-- The assignment loop: the `i`-th entry of the ranked list receives the
`i`-th `nameGenerator.next().value`. -/
def assignAux : Nat → List (Str × Nat) → List (Str × Str) → List (Str × Str)
  | _, [], m => m
  | i, e :: rest, m => assignAux (i + 1) rest (mapInsert m e.1 (createStringGeneratorValue i))

/-- The Rename Table (`replacementNames`) of one `minifyCssClasses`
invocation, built from the Usage Count Table. -/
def replacementNamesOf (counts : List (Str × Nat)) : List (Str × Str) :=
  assignAux 0 (orderedUsageCount counts) []

/-- The HTML class-attribute rewrite of `minifyCssClasses`: tokens present
in the Rename Table are replaced, the list is re-joined with single spaces
and re-quoted in the original style.  The source returns only the quoted
token list, so the whole regex match — including the `class=` prefix that
`HTML_CLASS_REGEX` matched — is replaced by it. -/
def htmlClassRepl (table : List (Str × Str)) (m : Option Str × Option Str) : Str :=
  let classes := jsTrim ((jsOr m.1 m.2).getD [])
  let classList := (jsSplitWs classes).map (fun t => (mapLookup table t).getD t)
  let joined := List.intercalate [' '] classList
  if jsTruthy m.1 then sqChar :: (joined ++ [sqChar])
  else dqChar :: (joined ++ [dqChar])

/-- The last character of a string, `s.slice(-1)`. -/
def takeLastOne (s : Str) : Str :=
  match s.getLast? with
  | some c => [c]
  | none => []

/-- `replaceCssClassName`: rename a (possibly quoted) `cssClassName`
argument through the Rename Table, keeping the quote characters. -/
def replaceCssClassName (cssClassName : Str) (table : List (Str × Str)) : Str :=
  let t := jsTrim cssClassName
  match t with
  | c :: _ =>
    if c = sqChar || c = dqChar then
      match mapLookup table ((t.drop 1).dropLast) with
      | some r => t.take 1 ++ r ++ takeLastOne t
      | none => t
    else
      match mapLookup table t with
      | some r => r
      | none => t
  | [] => t

/-- The CSS selector rewrite of `minifyCssClasses`: a `.name` match whose
name is in the Rename Table becomes `.` plus the new name, otherwise the
match text is kept. -/
def cssClassRepl (table : List (Str × Str)) (classMatch name : Str) : Str :=
  match mapLookup table name with
  | some r => '.' :: r
  | none => classMatch

/-- `minifyCssClasses(html, cssFiles, jsFiles, whitelist)` of part_001:
count, rank, assign, then rewrite the three surfaces.  The result is the
rewritten HTML together with the mutated CSS and JS asset maps.  Note that
both `JS_CLASS_REGEX` rewrites replace the whole `cssClassName(...)` match
by the bare replaced argument, dropping the call wrapper. -/
def minifyCssClasses (html : Str) (cssFiles jsFiles : List (Str × Str))
    (whitelist : List Str) : Str × List (Str × Str) × List (Str × Str) :=
  let counts := minifyUsageCounts html cssFiles jsFiles whitelist
  let table := replacementNamesOf counts
  let html1 := jsReplace htmlClassTryAt (fun _full m => htmlClassRepl table m) html
  let html2 := jsReplace jsClassTryAt (fun _full param => replaceCssClassName param table) html1
  let cssFiles' := cssFiles.map (fun f =>
    (f.1, jsReplace cssClassTryAt (fun full name => cssClassRepl table full name) f.2))
  let jsFiles' := jsFiles.map (fun f =>
    (f.1, jsReplace jsClassTryAt (fun _full param => replaceCssClassName param table) f.2))
  (html2, cssFiles', jsFiles')

/-! ## bundleOutputFile (index.ts lines 729–785)

The per-document pipeline after templating: run the preps (awaited
together through `Promise.all`, whose rejection carries the failing read),
optionally minify, then optionally bundle.  Template rendering, vinyl
plumbing and the write-back of mutated assets are outside this core; a
rejected prep reaches the `catch`, which emits a `PluginError` and never
pushes an output file — embedded as `Except.error` carrying the failing
path.  The two preps run concurrently; they fill distinct maps, so the
sequential replay only fixes which of two simultaneous failures is
reported. -/

structure BundleOptions where
  bundleJs : Bool
  bundleCss : Bool
  minifyCssClasses : Bool
  classesWhitelist : List Str

def bundleOutputFile (opts : BundleOptions) (fs : Str → Option Str)
    (baseUrl : Str) (html : Str) : Except Str Str :=
  match (if opts.bundleJs || opts.minifyCssClasses
         then bundleJsPrep fs html [] baseUrl else .ok []) with
  | .error p => .error p
  | .ok jsFiles =>
    match (if opts.bundleCss || opts.minifyCssClasses
           then bundleCssPrep fs html [] baseUrl else .ok []) with
    | .error p => .error p
    | .ok cssFiles =>
      let step1 := if opts.minifyCssClasses
        then minifyCssClasses html cssFiles jsFiles opts.classesWhitelist
        else (html, cssFiles, jsFiles)
      let html1 := if opts.bundleJs then bundleJs step1.1 step1.2.2 baseUrl else step1.1
      let html2 := if opts.bundleCss then bundleCss html1 step1.2.1 baseUrl else html1
      .ok html2

/-! ## Map lemmas -/

theorem mapKeys_cons {α : Type} (e : Str × α) (es : List (Str × α)) :
    mapKeys (e :: es) = e.1 :: mapKeys es := rfl

theorem mem_mapKeys_mapInsert {α : Type} (m : List (Str × α)) (k w : Str) (v : α) :
    w ∈ mapKeys (mapInsert m k v) ↔ w ∈ mapKeys m ∨ w = k := by
  induction m with
  | nil =>
    simp only [mapInsert, mapKeys, List.map_cons, List.map_nil, List.mem_cons,
      List.not_mem_nil, false_or, or_false]
  | cons e es ih =>
    by_cases hk : e.1 = k
    · rw [show mapInsert (e :: es) k v = (k, v) :: es from by simp [mapInsert, hk]]
      rw [mapKeys_cons, mapKeys_cons]
      simp only [List.mem_cons]
      constructor
      · rintro (h | h)
        · exact Or.inr h
        · exact Or.inl (Or.inr h)
      · rintro ((h | h) | h)
        · exact Or.inl (by rw [hk] at h; exact h)
        · exact Or.inr h
        · exact Or.inl h
    · rw [show mapInsert (e :: es) k v = e :: mapInsert es k v from by simp [mapInsert, hk]]
      rw [mapKeys_cons, mapKeys_cons]
      simp only [List.mem_cons, ih]
      tauto

theorem nodup_mapKeys_mapInsert {α : Type} (m : List (Str × α)) (k : Str) (v : α)
    (h : (mapKeys m).Nodup) : (mapKeys (mapInsert m k v)).Nodup := by
  induction m with
  | nil => simp [mapInsert, mapKeys]
  | cons e es ih =>
    rw [mapKeys_cons, List.nodup_cons] at h
    by_cases hk : e.1 = k
    · rw [show mapInsert (e :: es) k v = (k, v) :: es from by simp [mapInsert, hk]]
      rw [mapKeys_cons, List.nodup_cons]
      exact ⟨by rw [← hk]; exact h.1, h.2⟩
    · rw [show mapInsert (e :: es) k v = e :: mapInsert es k v from by simp [mapInsert, hk]]
      rw [mapKeys_cons, List.nodup_cons]
      refine ⟨?_, ih h.2⟩
      rw [mem_mapKeys_mapInsert]
      rintro (hmem | heq)
      · exact h.1 hmem
      · exact hk heq

theorem mapLookup_cons {α : Type} (e : Str × α) (es : List (Str × α)) (w : Str) :
    mapLookup (e :: es) w = if e.1 = w then some e.2 else mapLookup es w := by
  by_cases hw : e.1 = w
  · simp [mapLookup, List.find?_cons_of_pos, hw]
  · simp [mapLookup, List.find?_cons_of_neg, hw]

theorem mapLookup_mapInsert_self {α : Type} (m : List (Str × α)) (k : Str) (v : α) :
    mapLookup (mapInsert m k v) k = some v := by
  induction m with
  | nil => simp [mapInsert, mapLookup_cons, mapLookup]
  | cons e es ih =>
    by_cases hk : e.1 = k
    · rw [show mapInsert (e :: es) k v = (k, v) :: es from by simp [mapInsert, hk]]
      simp [mapLookup_cons]
    · rw [show mapInsert (e :: es) k v = e :: mapInsert es k v from by simp [mapInsert, hk]]
      rw [mapLookup_cons, if_neg hk]
      exact ih

theorem mapLookup_mapInsert_ne {α : Type} (m : List (Str × α)) (k w : Str) (v : α)
    (h : w ≠ k) : mapLookup (mapInsert m k v) w = mapLookup m w := by
  have hne : ¬(k = w) := fun hkw => h hkw.symm
  induction m with
  | nil =>
    rw [show mapInsert ([] : List (Str × α)) k v = [(k, v)] from rfl, mapLookup_cons]
    simp [hne, mapLookup]
  | cons e es ih =>
    by_cases hk : e.1 = k
    · rw [show mapInsert (e :: es) k v = (k, v) :: es from by simp [mapInsert, hk]]
      have hne2 : ¬(e.1 = w) := by rw [hk]; exact hne
      rw [mapLookup_cons, mapLookup_cons]
      simp [hne, hne2]
    · rw [show mapInsert (e :: es) k v = e :: mapInsert es k v from by simp [mapInsert, hk]]
      rw [mapLookup_cons, mapLookup_cons, ih]

theorem mem_of_mem_mapInsert {α : Type} (m : List (Str × α)) (k w : Str) (v c : α)
    (h : (w, c) ∈ mapInsert m k v) : (w, c) ∈ m ∨ (w = k ∧ c = v) := by
  induction m with
  | nil =>
    simp only [mapInsert, List.mem_cons, List.not_mem_nil, or_false] at h
    exact Or.inr ⟨congrArg Prod.fst h, congrArg Prod.snd h⟩
  | cons e es ih =>
    by_cases hk : e.1 = k
    · rw [show mapInsert (e :: es) k v = (k, v) :: es from by simp [mapInsert, hk]] at h
      rcases List.mem_cons.mp h with h' | h'
      · exact Or.inr ⟨congrArg Prod.fst h', congrArg Prod.snd h'⟩
      · exact Or.inl (List.mem_cons_of_mem _ h')
    · rw [show mapInsert (e :: es) k v = e :: mapInsert es k v from by simp [mapInsert, hk]] at h
      rcases List.mem_cons.mp h with h' | h'
      · exact Or.inl (h' ▸ List.mem_cons_self _ _)
      · rcases ih h' with h'' | h''
        · exact Or.inl (List.mem_cons_of_mem _ h'')
        · exact Or.inr h''

theorem mapLookup_eq_none_iff {α : Type} (m : List (Str × α)) (w : Str) :
    mapLookup m w = none ↔ w ∉ mapKeys m := by
  induction m with
  | nil => simp [mapLookup, mapKeys]
  | cons e es ih =>
    rw [mapLookup_cons, mapKeys_cons]
    by_cases hw : e.1 = w
    · simp [hw]
    · rw [if_neg hw, ih]
      simp only [List.mem_cons]
      constructor
      · intro h hc
        rcases hc with hc | hc
        · exact hw hc.symm
        · exact h hc
      · intro h hc
        exact h (Or.inr hc)

/-! ## Claim theorems -/

/-- C1: evaluation of `bundleCss` at a document holding one qualifying
stylesheet link (relative `href` resolving to loaded content `CSS`) and one
`rel="icon"` link.  The qualifying tag is replaced by `<style>CSS</style>`
as the claim states, but the icon link — whose text the claim requires to
be unchanged — is replaced by the text `undefined`: the replacer's bare
`return;` for non-stylesheet links makes `String.replace` insert the
stringified `undefined`. -/
theorem c1_bundleCss_failing_eval :
    bundleCss (lit "<link rel=\"stylesheet\" href=\"a.css\"/><link rel=\"icon\" href=\"f.ico\"/>")
        [(lit "/base/a.css", lit "CSS")] (lit "/base")
      = lit "<style>CSS</style>undefined" ∧
    lit "<style>CSS</style>undefined"
      ≠ lit "<style>CSS</style><link rel=\"icon\" href=\"f.ico\"/>" := by
  exact ⟨by decide, by decide⟩

/-- C2: evaluation of `bundleCss` and `combineCss` at a single `<link>`
whose `rel` is not `stylesheet`.  The claim requires the tag's text to
survive byte-for-byte; both functions instead replace it by the text
`undefined` (the bare `return;` in the replace callback), contradicting
the source's own comment "then don't replace it". -/
theorem c2_nonStylesheet_link_failing_eval :
    bundleCss (lit "<link rel=\"icon\" href=\"f.ico\"/>") [] (lit "/base")
      = lit "undefined" ∧
    combineCss (lit "<link rel=\"icon\" href=\"f.ico\"/>") [] (lit "/base")
      = lit "undefined" ∧
    lit "undefined" ≠ lit "<link rel=\"icon\" href=\"f.ico\"/>" := by
  exact ⟨by decide, by decide, by decide⟩

/-- C3: `combineJs` behaves as claimed on a clean document (two qualifying
script tags collapse into one combined tag at the first tag's position,
the second becoming empty), but the fixed placeholder `<$SCRIPT$>` is not
collision-free: on a document that already contains the placeholder text
before the first qualifying tag, the final first-occurrence string replace
installs the combined tag at the pre-existing occurrence, not at the first
qualifying tag's position, and the actual placeholder survives as text.
The same constant also breaks the `N = 0` case: with no script tag at all,
a document containing `<$SCRIPT$>` is rewritten to an empty combined tag. -/
theorem c3_combineJs_placeholder_failing_eval :
    combineJs (lit "<p/><script src=\"a.js\"></script><script src=\"b.js\"></script><hr/>")
        [(lit "/b/a.js", lit "A;"), (lit "/b/b.js", lit "B;")] (lit "/b")
      = lit "<p/><script>A;B;</script><hr/>" ∧
    combineJs (lit "<$SCRIPT$><script src=\"a.js\"></script>")
        [(lit "/b/a.js", lit "A")] (lit "/b")
      = lit "<script>A</script><$SCRIPT$>" ∧
    lit "<script>A</script><$SCRIPT$>" ≠ lit "<$SCRIPT$><script>A</script>" ∧
    combineJs (lit "<$SCRIPT$>") [] (lit "/b") = lit "<script></script>" ∧
    lit "<script></script>" ≠ lit "<$SCRIPT$>" := by
  exact ⟨by decide, by decide, by decide, by decide, by decide⟩

/-- C4: `minifyCssClasses` is not idempotent.  With the whitelist `["a"]`
and one stylesheet `.x.y.x`, the first pass counts `x` twice and `y` once
and renames `x` to `a` and `y` to `b` — the generator ignores the
whitelist, so the whitelisted name `a` is handed out anyway.  On the
second pass, with the same whitelist, the occurrences of `a` are exempt
from counting, so `b` is now the most-used name and is renamed to `a`:
the stylesheet becomes `.a.a.a`, not byte-identical to the first pass's
`.a.b.a` (and now collides with the whitelisted name). -/
theorem c4_minify_not_idempotent_eval :
    minifyCssClasses (lit "") [(lit "/c.css", lit ".x.y.x")] [] [lit "a"]
      = (lit "", [(lit "/c.css", lit ".a.b.a")], ([] : List (Str × Str))) ∧
    minifyCssClasses (lit "") [(lit "/c.css", lit ".a.b.a")] [] [lit "a"]
      = (lit "", [(lit "/c.css", lit ".a.a.a")], ([] : List (Str × Str))) ∧
    lit ".a.b.a" ≠ lit ".a.a.a" := by
  exact ⟨by decide, by decide, by decide⟩

/-- C8 counterexample: a document referencing the same script file from two
tags issues two reads of the same resolved path — loading is performed once
per referencing tag, not once per distinct path. -/
theorem c8_prep_duplicate_load_counterexample :
    bundleJsPrepRequests
        (lit "<script src=\"a.js\"></script><script src=\"a.js\"></script>") (lit "/b")
      = [lit "/b/a.js", lit "/b/a.js"] ∧
    (bundleJsPrepRequests
        (lit "<script src=\"a.js\"></script><script src=\"a.js\"></script>") (lit "/b")).count
        (lit "/b/a.js") ≠ 1 := by
  exact ⟨by decide, by decide⟩

/-! ## Load replay lemmas -/

theorem loadAll_ok_spec (fs : Str → Option Str) :
    ∀ (reqs : List Str) (m m' : List (Str × Str)), loadAll fs reqs m = .ok m' →
      (((mapKeys m).Nodup → (mapKeys m').Nodup) ∧
       (∀ p, p ∈ mapKeys m' ↔ p ∈ mapKeys m ∨ p ∈ reqs) ∧
       (∀ p c, (p, c) ∈ m' → (p, c) ∈ m ∨ fs p = some c)) := by
  intro reqs
  induction reqs with
  | nil =>
    intro m m' h
    simp only [loadAll, Except.ok.injEq] at h
    subst h
    exact ⟨fun h => h, fun p => by simp, fun p c hpc => Or.inl hpc⟩
  | cons q rest ih =>
    intro m m' h
    simp only [loadAll] at h
    cases hq : fs q with
    | none => rw [hq] at h; exact absurd h (by simp)
    | some c =>
      rw [hq] at h
      obtain ⟨h1, h2, h3⟩ := ih (mapInsert m q c) m' h
      refine ⟨fun hnd => h1 (nodup_mapKeys_mapInsert m q c hnd), ?_, ?_⟩
      · intro p
        rw [h2 p, mem_mapKeys_mapInsert]
        simp only [List.mem_cons]
        tauto
      · intro p c' hpc
        rcases h3 p c' hpc with h' | h'
        · rcases mem_of_mem_mapInsert m q p c c' h' with h'' | h''
          · exact Or.inl h''
          · exact Or.inr (by rw [h''.1, hq, h''.2])
        · exact Or.inr h'

theorem loadAll_error_of_missing (fs : Str → Option Str) :
    ∀ (reqs : List Str) (m : List (Str × Str)),
      (∃ p ∈ reqs, fs p = none) →
      ∃ q ∈ reqs, fs q = none ∧ loadAll fs reqs m = .error q := by
  intro reqs
  induction reqs with
  | nil => intro m h; simp at h
  | cons q rest ih =>
    intro m h
    cases hq : fs q with
    | none => exact ⟨q, List.mem_cons_self _ _, hq, by simp [loadAll, hq]⟩
    | some c =>
      obtain ⟨p, hp, hfp⟩ := h
      rcases List.mem_cons.mp hp with rfl | hp'
      · rw [hq] at hfp; exact absurd hfp (by simp)
      · obtain ⟨r, hr, hfr, hload⟩ := ih (mapInsert m q c) ⟨p, hp', hfp⟩
        exact ⟨r, List.mem_cons_of_mem _ hr, hfr, by simp [loadAll, hq, hload]⟩

/-- C8 (amended): each qualifying reference issues its own read — a tag
contributes one request per qualifying `src`/`href` attribute, so a path
referenced `k` times is read `k` times, not once — while the resulting
Asset Map still holds every distinct resolved path exactly once as a key,
with the loaded file contents as value. -/
theorem c8_prep_loads_amended (html baseUrl : Str) (fs : Str → Option Str)
    (mj mc : List (Str × Str))
    (hj : bundleJsPrep fs html [] baseUrl = .ok mj)
    (hc : bundleCssPrep fs html [] baseUrl = .ok mc) :
    (∀ p, (bundleJsPrepRequests html baseUrl).count p
        = ((scriptMatches html).map (fun m =>
            (tagSrcRequests baseUrl (attributesOfRaw m.2.1 m.2.2)).count p)).sum) ∧
    (mapKeys mj).Nodup ∧
    (∀ p, p ∈ mapKeys mj ↔ p ∈ bundleJsPrepRequests html baseUrl) ∧
    (∀ p c, (p, c) ∈ mj → fs p = some c) ∧
    (mapKeys mc).Nodup ∧
    (∀ p, p ∈ mapKeys mc ↔ p ∈ bundleCssPrepRequests html baseUrl) ∧
    (∀ p c, (p, c) ∈ mc → fs p = some c) := by
  obtain ⟨hjn, hjm, hjv⟩ := loadAll_ok_spec fs _ _ _ hj
  obtain ⟨hcn, hcm, hcv⟩ := loadAll_ok_spec fs _ _ _ hc
  refine ⟨?_, hjn (by simp [mapKeys]), ?_, ?_, hcn (by simp [mapKeys]), ?_, ?_⟩
  · intro p
    rw [bundleJsPrepRequests]
    generalize scriptMatches html = ms
    induction ms using List.reverseRecOn with
    | nil => simp
    | append_singleton ms m ihm => simp [List.foldl_append, List.count_append, ihm]
  · intro p
    rw [hjm p]
    simp [mapKeys]
  · intro p c hpc
    rcases hjv p c hpc with h | h
    · simp at h
    · exact h
  · intro p
    rw [hcm p]
    simp [mapKeys]
  · intro p c hpc
    rcases hcv p c hpc with h | h
    · simp at h
    · exact h

/-- Witness for C8's amended theorem at the duplicated-reference document:
the two reads of `/b/a.js` produce a map with the single key `/b/a.js`. -/
theorem c8_prep_loads_amended_witness :
    bundleJsPrep (fun p => if p = lit "/b/a.js" then some (lit "A") else none)
        (lit "<script src=\"a.js\"></script><script src=\"a.js\"></script>") [] (lit "/b")
      = .ok [(lit "/b/a.js", lit "A")] ∧
    (mapKeys [(lit "/b/a.js", lit "A")]).Nodup ∧
    (∀ p c, (p, c) ∈ [(lit "/b/a.js", lit "A")] →
      (fun p => if p = lit "/b/a.js" then some (lit "A") else none) p = some c) := by
  have h := c8_prep_loads_amended
    (lit "<script src=\"a.js\"></script><script src=\"a.js\"></script>") (lit "/b")
    (fun p => if p = lit "/b/a.js" then some (lit "A") else none)
    [(lit "/b/a.js", lit "A")] []
    (by rfl)
    (by rfl)
  exact ⟨by rfl, h.2.1, h.2.2.2.1⟩

/-- All read requests issued by the per-document pipeline for one
document: the script `src` references when the js prep runs (js bundling
or minification enabled) and the stylesheet `href` references when the
css prep runs (css bundling or minification enabled), in issue order. -/
def bundleOutputFileRequests (opts : BundleOptions) (html baseUrl : Str) : List Str :=
  (if opts.bundleJs || opts.minifyCssClasses
    then bundleJsPrepRequests html baseUrl else [])
  ++ (if opts.bundleCss || opts.minifyCssClasses
    then bundleCssPrepRequests html baseUrl else [])

theorem loadAll_ok_of_all_present (fs : Str → Option Str) :
    ∀ (reqs : List Str) (m : List (Str × Str)),
      (∀ p ∈ reqs, fs p ≠ none) → ∃ m', loadAll fs reqs m = .ok m' := by
  intro reqs
  induction reqs with
  | nil => intro m _; exact ⟨m, rfl⟩
  | cons q rest ih =>
    intro m h
    cases hq : fs q with
    | none => exact absurd hq (h q (List.mem_cons_self _ _))
    | some c =>
      obtain ⟨m', hm'⟩ := ih (mapInsert m q c) (fun p hp => h p (List.mem_cons_of_mem _ hp))
      exact ⟨m', by simp [loadAll, hq, hm']⟩

/-- C9: when any referenced asset path of the document fails to load (the
file system has no content for a resolved path that the enabled pipeline
requests — a script `src` read issued by `bundleJsPrep`, or a stylesheet
`href` read issued by `bundleCssPrep`), the whole per-document pipeline
fails: `bundleOutputFile` rejects with a failing path — a requested path
whose read found no content — and no output document is produced.  The
missing file is never replaced by empty content: the error is raised
instead of storing anything under the path. -/
theorem c9_load_failure_fatal (opts : BundleOptions) (fs : Str → Option Str)
    (baseUrl html : Str)
    (hmiss : ∃ p ∈ bundleOutputFileRequests opts html baseUrl, fs p = none) :
    ∃ q ∈ bundleOutputFileRequests opts html baseUrl, fs q = none ∧
      bundleOutputFile opts fs baseUrl html = .error q ∧
      ∀ out, bundleOutputFile opts fs baseUrl html ≠ .ok out := by
  obtain ⟨p, hp, hfp⟩ := hmiss
  rw [bundleOutputFileRequests] at hp
  by_cases hjsmiss : ∃ r ∈ (if opts.bundleJs || opts.minifyCssClasses
      then bundleJsPrepRequests html baseUrl else []), fs r = none
  · -- a script read fails: the js prep (which must be enabled) rejects first
    have hjs : (opts.bundleJs || opts.minifyCssClasses) = true := by
      cases hb : (opts.bundleJs || opts.minifyCssClasses) with
      | true => rfl
      | false => rw [hb] at hjsmiss; simp at hjsmiss
    obtain ⟨r, hr, hfr⟩ := hjsmiss
    have hr' : r ∈ bundleJsPrepRequests html baseUrl := by
      rw [hjs] at hr
      simpa using hr
    obtain ⟨q, hq, hfq, hload⟩ :=
      loadAll_error_of_missing fs (bundleJsPrepRequests html baseUrl) [] ⟨r, hr', hfr⟩
    have hrunj : (if opts.bundleJs || opts.minifyCssClasses
        then bundleJsPrep fs html [] baseUrl else .ok []) = .error q := by
      rw [hjs]
      simpa [bundleJsPrep] using hload
    have herr : bundleOutputFile opts fs baseUrl html = .error q := by
      rw [bundleOutputFile, hrunj]
    refine ⟨q, ?_, hfq, herr, ?_⟩
    · rw [bundleOutputFileRequests]
      apply List.mem_append_left
      rw [hjs]
      simpa using hq
    · intro out hout
      rw [herr] at hout
      exact Except.noConfusion hout
  · -- every script read succeeds (or the js prep is disabled), so the
    -- failing path is a stylesheet read and the css prep rejects
    have hjsok : ∃ mj, (if opts.bundleJs || opts.minifyCssClasses
        then bundleJsPrep fs html [] baseUrl else .ok []) = .ok mj := by
      cases hb : (opts.bundleJs || opts.minifyCssClasses) with
      | true =>
        have hall : ∀ r ∈ bundleJsPrepRequests html baseUrl, fs r ≠ none := by
          intro r hr hfr
          exact hjsmiss ⟨r, by rw [hb]; simpa using hr, hfr⟩
        obtain ⟨mj, hmj⟩ :=
          loadAll_ok_of_all_present fs (bundleJsPrepRequests html baseUrl) [] hall
        exact ⟨mj, by simpa [bundleJsPrep] using hmj⟩
      | false => exact ⟨[], by simp⟩
    obtain ⟨mj, hrunj⟩ := hjsok
    have hpcss : p ∈ bundleCssPrepRequests html baseUrl
        ∧ (opts.bundleCss || opts.minifyCssClasses) = true := by
      rcases List.mem_append.mp hp with h | h
      · exact absurd ⟨p, h, hfp⟩ hjsmiss
      · cases hb : (opts.bundleCss || opts.minifyCssClasses) with
        | true => exact ⟨by rw [hb] at h; simpa using h, rfl⟩
        | false => rw [hb] at h; simp at h
    obtain ⟨q, hq, hfq, hload⟩ :=
      loadAll_error_of_missing fs (bundleCssPrepRequests html baseUrl) [] ⟨p, hpcss.1, hfp⟩
    have hrunc : (if opts.bundleCss || opts.minifyCssClasses
        then bundleCssPrep fs html [] baseUrl else .ok []) = .error q := by
      rw [hpcss.2]
      simpa [bundleCssPrep] using hload
    have herr : bundleOutputFile opts fs baseUrl html = .error q := by
      rw [bundleOutputFile, hrunj, hrunc]
    refine ⟨q, ?_, hfq, herr, ?_⟩
    · rw [bundleOutputFileRequests]
      apply List.mem_append_right
      rw [hpcss.2]
      simpa using hq
    · intro out hout
      rw [herr] at hout
      exact Except.noConfusion hout

/-- Witness for C9 at the configuration its earlier form missed: with an
empty file system, a one-stylesheet-link document and only css bundling
enabled, the pipeline rejects with the failing stylesheet path. -/
theorem c9_load_failure_fatal_witness :
    ∃ q ∈ bundleOutputFileRequests ⟨false, true, false, []⟩
        (lit "<link rel=\"stylesheet\" href=\"a.css\"/>") (lit "/b"),
      (fun (_ : Str) => (none : Option Str)) q = none ∧
      bundleOutputFile ⟨false, true, false, []⟩ (fun _ => none) (lit "/b")
        (lit "<link rel=\"stylesheet\" href=\"a.css\"/>") = .error q ∧
      ∀ out, bundleOutputFile ⟨false, true, false, []⟩ (fun _ => none) (lit "/b")
        (lit "<link rel=\"stylesheet\" href=\"a.css\"/>") ≠ .ok out := by
  exact c9_load_failure_fatal ⟨false, true, false, []⟩ (fun _ => none)
    (lit "/b") (lit "<link rel=\"stylesheet\" href=\"a.css\"/>")
    ⟨lit "/b/a.css", by decide, rfl⟩

/-! ## The last locator attribute of one tag -/

/-- The value that `contents` is last assigned from: the trimmed value of
the last attribute named `attr` in the match list (the attribute loops
overwrite `contents` on every `src`/`href`). -/
def lastAttrValueAux (attr : Str) (acc : Option Str)
    (l : List (Str × Option Str × Option Str)) : Option Str :=
  l.foldl (fun acc m => if m.1 = attr then some (attribValueOf m.2.1 m.2.2) else acc) acc

theorem lastAttrValueAux_shift (attr : Str) (l : List (Str × Option Str × Option Str)) :
    ∀ acc, lastAttrValueAux attr acc l
      = match lastAttrValueAux attr none l with
        | some v => some v
        | none => acc := by
  induction l with
  | nil => intro acc; rfl
  | cons m rest ih =>
    intro acc
    by_cases hm : m.1 = attr
    · have h1 : lastAttrValueAux attr acc (m :: rest)
          = lastAttrValueAux attr (some (attribValueOf m.2.1 m.2.2)) rest := by
        simp [lastAttrValueAux, hm]
      have h2 : lastAttrValueAux attr none (m :: rest)
          = lastAttrValueAux attr (some (attribValueOf m.2.1 m.2.2)) rest := by
        simp [lastAttrValueAux, hm]
      rw [h1, h2]
      cases hv : lastAttrValueAux attr (some (attribValueOf m.2.1 m.2.2)) rest with
      | some v => rfl
      | none =>
        exfalso
        rw [ih (some (attribValueOf m.2.1 m.2.2))] at hv
        revert hv
        cases lastAttrValueAux attr none rest <;> simp
    · have h1 : lastAttrValueAux attr acc (m :: rest) = lastAttrValueAux attr acc rest := by
        simp [lastAttrValueAux, hm]
      have h2 : lastAttrValueAux attr none (m :: rest) = lastAttrValueAux attr none rest := by
        simp [lastAttrValueAux, hm]
      rw [h1, h2]
      exact ih acc

theorem jsAttribFold_snd_of_other (jsFiles : List (Str × Str)) (baseUrl : Str)
    (st : List (Str × Option Str) × Option Str) (m : Str × Option Str × Option Str)
    (hm : ¬(m.1 = lit "src")) : (jsAttribFold jsFiles baseUrl st m).2 = st.2 := by
  simp [jsAttribFold, hm]

theorem cssAttribFold_snd_of_other (cssFiles : List (Str × Str)) (baseUrl : Str)
    (st : List (Str × Option Str) × Option Str) (m : Str × Option Str × Option Str)
    (hm : ¬(m.1 = lit "href")) : (cssAttribFold cssFiles baseUrl st m).2 = st.2 := by
  by_cases hr : (m.1 = lit "rel" || m.1 = lit "type" : Bool)
  · simp [cssAttribFold, hm, hr]
  · simp [cssAttribFold, hm, hr]

theorem jsAttribFold_contents_of_none (jsFiles : List (Str × Str)) (baseUrl : Str) :
    ∀ (l : List (Str × Option Str × Option Str)) (st : List (Str × Option Str) × Option Str),
      lastAttrValueAux (lit "src") none l = none →
      (l.foldl (jsAttribFold jsFiles baseUrl) st).2 = st.2 := by
  intro l
  induction l with
  | nil => intro st _; rfl
  | cons m rest ih =>
    intro st h
    by_cases hm : m.1 = lit "src"
    · exfalso
      have h' : lastAttrValueAux (lit "src") (some (attribValueOf m.2.1 m.2.2)) rest = none := by
        simpa [lastAttrValueAux, hm] using h
      rw [lastAttrValueAux_shift] at h'
      revert h'
      cases lastAttrValueAux (lit "src") none rest <;> simp
    · have h' : lastAttrValueAux (lit "src") none rest = none := by
        simpa [lastAttrValueAux, hm] using h
      simp only [List.foldl_cons]
      rw [ih _ h']
      exact jsAttribFold_snd_of_other jsFiles baseUrl st m hm

theorem cssAttribFold_contents_of_none (cssFiles : List (Str × Str)) (baseUrl : Str) :
    ∀ (l : List (Str × Option Str × Option Str)) (st : List (Str × Option Str) × Option Str),
      lastAttrValueAux (lit "href") none l = none →
      (l.foldl (cssAttribFold cssFiles baseUrl) st).2 = st.2 := by
  intro l
  induction l with
  | nil => intro st _; rfl
  | cons m rest ih =>
    intro st h
    by_cases hm : m.1 = lit "href"
    · exfalso
      have h' : lastAttrValueAux (lit "href") (some (attribValueOf m.2.1 m.2.2)) rest = none := by
        simpa [lastAttrValueAux, hm] using h
      rw [lastAttrValueAux_shift] at h'
      revert h'
      cases lastAttrValueAux (lit "href") none rest <;> simp
    · have h' : lastAttrValueAux (lit "href") none rest = none := by
        simpa [lastAttrValueAux, hm] using h
      simp only [List.foldl_cons]
      rw [ih _ h']
      exact cssAttribFold_snd_of_other cssFiles baseUrl st m hm

theorem jsAttribFold_contents_of_last (jsFiles : List (Str × Str)) (baseUrl : Str) :
    ∀ (l : List (Str × Option Str × Option Str)) (st : List (Str × Option Str) × Option Str)
      (v : Str), lastAttrValueAux (lit "src") none l = some v →
      (l.foldl (jsAttribFold jsFiles baseUrl) st).2
        = mapLookup jsFiles (pathResolve baseUrl (stripSlash v)) := by
  intro l
  induction l with
  | nil => intro st v h; simp [lastAttrValueAux] at h
  | cons m rest ih =>
    intro st v h
    by_cases hm : m.1 = lit "src"
    · have h' : lastAttrValueAux (lit "src") (some (attribValueOf m.2.1 m.2.2)) rest = some v := by
        simpa [lastAttrValueAux, hm] using h
      rw [lastAttrValueAux_shift] at h'
      simp only [List.foldl_cons]
      cases hr : lastAttrValueAux (lit "src") none rest with
      | some v' =>
        rw [hr] at h'
        simp only [Option.some.injEq] at h'
        subst h'
        exact ih _ v' hr
      | none =>
        rw [hr] at h'
        simp only [Option.some.injEq] at h'
        subst h'
        rw [jsAttribFold_contents_of_none jsFiles baseUrl rest _ hr]
        simp [jsAttribFold, hm]
    · have h' : lastAttrValueAux (lit "src") none rest = some v := by
        simpa [lastAttrValueAux, hm] using h
      simp only [List.foldl_cons]
      rw [ih _ v h']

theorem cssAttribFold_contents_of_last (cssFiles : List (Str × Str)) (baseUrl : Str) :
    ∀ (l : List (Str × Option Str × Option Str)) (st : List (Str × Option Str) × Option Str)
      (v : Str), lastAttrValueAux (lit "href") none l = some v →
      (l.foldl (cssAttribFold cssFiles baseUrl) st).2
        = mapLookup cssFiles (pathResolve baseUrl (stripSlash v)) := by
  intro l
  induction l with
  | nil => intro st v h; simp [lastAttrValueAux] at h
  | cons m rest ih =>
    intro st v h
    by_cases hm : m.1 = lit "href"
    · have h' : lastAttrValueAux (lit "href") (some (attribValueOf m.2.1 m.2.2)) rest = some v := by
        simpa [lastAttrValueAux, hm] using h
      rw [lastAttrValueAux_shift] at h'
      simp only [List.foldl_cons]
      cases hr : lastAttrValueAux (lit "href") none rest with
      | some v' =>
        rw [hr] at h'
        simp only [Option.some.injEq] at h'
        subst h'
        exact ih _ v' hr
      | none =>
        rw [hr] at h'
        simp only [Option.some.injEq] at h'
        subst h'
        rw [cssAttribFold_contents_of_none cssFiles baseUrl rest _ hr]
        simp [cssAttribFold, hm]
    · have h' : lastAttrValueAux (lit "href") none rest = some v := by
        simpa [lastAttrValueAux, hm] using h
      simp only [List.foldl_cons]
      rw [ih _ v h']

/-- C10: when a qualifying tag's resolved asset path is present in the
Asset Map but maps to the empty string, the inliners leave the tag's
original text unmodified.  The `contents` local ends up holding the empty
string (the lookup of the last `src`/`href` attribute's resolved path),
which is falsy, so the `if (contents)` guard takes the `return tagMatch`
branch: the rewrite happens only for non-empty loaded content. -/
theorem c10_empty_content_leaves_tag
    (jsFiles cssFiles : List (Str × Str)) (baseUrl tagMatch : Str)
    (g1 g2 : Option Str) (attribs : Str) (vj vc : Str) :
    (lastAttrValueAux (lit "src") none (xmlAttribMatches (attributesOfTrim g1 g2)) = some vj →
      mapLookup jsFiles (pathResolve baseUrl (stripSlash vj)) = some [] →
      bundleJsReplacer jsFiles baseUrl tagMatch (g1, g2) = tagMatch) ∧
    (isCss attribs = true →
      lastAttrValueAux (lit "href") none (xmlAttribMatches attribs) = some vc →
      mapLookup cssFiles (pathResolve baseUrl (stripSlash vc)) = some [] →
      bundleCssReplacer cssFiles baseUrl tagMatch attribs = tagMatch) := by
  constructor
  · intro hlast hmap
    have hc : ((xmlAttribMatches (attributesOfTrim g1 g2)).foldl
        (jsAttribFold jsFiles baseUrl) ([], some [])).2 = some [] := by
      rw [jsAttribFold_contents_of_last jsFiles baseUrl _ _ vj hlast, hmap]
    show (if jsTruthy ((xmlAttribMatches (attributesOfTrim g1 g2)).foldl
        (jsAttribFold jsFiles baseUrl) ([], some [])).2
      then scriptTagOf _ _ else tagMatch) = tagMatch
    rw [hc]
    rfl
  · intro hcss hlast hmap
    have hc : ((xmlAttribMatches attribs).foldl
        (cssAttribFold cssFiles baseUrl) ([], some [])).2 = some [] := by
      rw [cssAttribFold_contents_of_last cssFiles baseUrl _ _ vc hlast, hmap]
    show bundleCssReplacer cssFiles baseUrl tagMatch attribs = tagMatch
    rw [bundleCssReplacer, hcss]
    show (if jsTruthy ((xmlAttribMatches attribs).foldl
        (cssAttribFold cssFiles baseUrl) ([], some [])).2
      then styleTagOf _ _ else tagMatch) = tagMatch
    rw [hc]
    rfl

/-- Witness for C10: a script tag whose `src` resolves to a mapped empty
file, and a stylesheet link whose `href` resolves to a mapped empty file,
are both left as their original text. -/
theorem c10_empty_content_leaves_tag_witness :
    bundleJsReplacer [(lit "/b/a.js", [])] (lit "/b")
        (lit "<script src=\"a.js\"></script>") (none, some (lit " src=\"a.js\""))
      = lit "<script src=\"a.js\"></script>" ∧
    bundleCssReplacer [(lit "/b/a.css", [])] (lit "/b")
        (lit "<link rel=\"stylesheet\" href=\"a.css\"/>")
        (lit " rel=\"stylesheet\" href=\"a.css\"")
      = lit "<link rel=\"stylesheet\" href=\"a.css\"/>" := by
  have h := c10_empty_content_leaves_tag [(lit "/b/a.js", [])] [(lit "/b/a.css", [])]
    (lit "/b") (lit "<script src=\"a.js\"></script>")
    none (some (lit " src=\"a.js\"")) (lit " rel=\"stylesheet\" href=\"a.css\"")
    (lit "a.js") (lit "a.css")
  have h2 := c10_empty_content_leaves_tag [(lit "/b/a.js", [])] [(lit "/b/a.css", [])]
    (lit "/b") (lit "<link rel=\"stylesheet\" href=\"a.css\"/>")
    none (some (lit " src=\"a.js\"")) (lit " rel=\"stylesheet\" href=\"a.css\"")
    (lit "a.js") (lit "a.css")
  exact ⟨h.1 (by decide) (by decide), h2.2 (by decide) (by decide) (by decide)⟩

/-! ## Whitelist lemmas -/

theorem not_mem_keys_addCssClass (wl : List Str) (m : List (Str × Nat)) (name w : Str)
    (hw : w ∈ wl) (hm : w ∉ mapKeys m) : w ∉ mapKeys (addCssClass wl m name) := by
  by_cases hn : name ∈ wl
  · simpa [addCssClass, hn] using hm
  · have hne : ¬(w = name) := fun h => hn (h ▸ hw)
    cases hLook : mapLookup m name with
    | some n =>
      simp only [addCssClass, hn, if_neg, if_false, hLook]
      rw [mem_mapKeys_mapInsert]
      rintro (h | h)
      · exact hm h
      · exact hne h
    | none =>
      simp only [addCssClass, hn, if_neg, if_false, hLook]
      rw [mem_mapKeys_mapInsert]
      rintro (h | h)
      · exact hm h
      · exact hne h

theorem not_mem_keys_foldl_addCssClass (wl : List Str) (w : Str) (hw : w ∈ wl) :
    ∀ (names : List Str) (m : List (Str × Nat)), w ∉ mapKeys m →
      w ∉ mapKeys (names.foldl (addCssClass wl) m) := by
  intro names
  induction names with
  | nil => intro m hm; exact hm
  | cons n rest ih =>
    intro m hm
    exact ih (addCssClass wl m n) (not_mem_keys_addCssClass wl m n w hw hm)

theorem mem_sortInsertDesc (l : List (Str × Nat)) (e a : Str × Nat) :
    a ∈ sortInsertDesc l e ↔ a = e ∨ a ∈ l := by
  induction l with
  | nil => simp [sortInsertDesc]
  | cons x xs ih =>
    by_cases hx : x.2 ≥ e.2
    · rw [show sortInsertDesc (x :: xs) e = x :: sortInsertDesc xs e from by
        simp [sortInsertDesc, hx]]
      simp only [List.mem_cons, ih]
      tauto
    · rw [show sortInsertDesc (x :: xs) e = e :: x :: xs from by simp [sortInsertDesc, hx]]
      simp only [List.mem_cons]

theorem perm_sortInsertDesc (l : List (Str × Nat)) (e : Str × Nat) :
    List.Perm (sortInsertDesc l e) (e :: l) := by
  induction l with
  | nil => simp [sortInsertDesc]
  | cons x xs ih =>
    by_cases hx : x.2 ≥ e.2
    · rw [show sortInsertDesc (x :: xs) e = x :: sortInsertDesc xs e from by
        simp [sortInsertDesc, hx]]
      exact (List.Perm.cons x ih).trans (List.Perm.swap e x xs)
    · rw [show sortInsertDesc (x :: xs) e = e :: x :: xs from by simp [sortInsertDesc, hx]]

theorem perm_foldl_sortInsertDesc :
    ∀ (l acc : List (Str × Nat)), List.Perm (l.foldl sortInsertDesc acc) (acc ++ l) := by
  intro l
  induction l with
  | nil => intro acc; simp
  | cons e rest ih =>
    intro acc
    rw [show (e :: rest).foldl sortInsertDesc acc
        = rest.foldl sortInsertDesc (sortInsertDesc acc e) from rfl]
    have h1 := ih (sortInsertDesc acc e)
    have h2 : List.Perm (sortInsertDesc acc e ++ rest) ((e :: acc) ++ rest) :=
      (perm_sortInsertDesc acc e).append_right rest
    have h3 : List.Perm ((e :: acc) ++ rest) (acc ++ e :: rest) := by
      rw [show ((e :: acc) ++ rest) = e :: (acc ++ rest) from rfl]
      exact List.perm_middle.symm
    exact (h1.trans h2).trans h3

theorem perm_orderedUsageCount (counts : List (Str × Nat)) :
    List.Perm (orderedUsageCount counts) counts := by
  simpa [orderedUsageCount] using perm_foldl_sortInsertDesc counts []

theorem lookup_assignAux_of_not_mem (w : Str) :
    ∀ (l : List (Str × Nat)), (∀ e ∈ l, e.1 ≠ w) →
      ∀ (i : Nat) (m : List (Str × Str)), mapLookup (assignAux i l m) w = mapLookup m w := by
  intro l
  induction l with
  | nil => intro _ i m; rfl
  | cons e rest ih =>
    intro h i m
    have hne : w ≠ e.1 := fun hw => h e (List.mem_cons_self _ _) hw.symm
    rw [show assignAux i (e :: rest) m
        = assignAux (i + 1) rest (mapInsert m e.1 (createStringGeneratorValue i)) from rfl]
    rw [ih (fun e' he' => h e' (List.mem_cons_of_mem _ he')) (i + 1) _]
    exact mapLookup_mapInsert_ne m e.1 w _ hne

theorem not_mem_keys_assignAux (w : Str) :
    ∀ (l : List (Str × Nat)), (∀ e ∈ l, e.1 ≠ w) →
      ∀ (i : Nat) (m : List (Str × Str)), w ∉ mapKeys m → w ∉ mapKeys (assignAux i l m) := by
  intro l
  induction l with
  | nil => intro _ i m hm; exact hm
  | cons e rest ih =>
    intro h i m hm
    rw [show assignAux i (e :: rest) m
        = assignAux (i + 1) rest (mapInsert m e.1 (createStringGeneratorValue i)) from rfl]
    apply ih (fun e' he' => h e' (List.mem_cons_of_mem _ he')) (i + 1)
    rw [mem_mapKeys_mapInsert]
    rintro (hmem | heq)
    · exact hm hmem
    · exact h e (List.mem_cons_self _ _) heq.symm

theorem jsTrim_quoted (q : Char) (hq : isJsSpace q = false) (l : Str) :
    jsTrim (q :: l ++ [q]) = q :: l ++ [q] := by
  have h1 : List.dropWhile isJsSpace (q :: l ++ [q]) = q :: l ++ [q] := by
    rw [show (q :: l ++ [q] : Str) = q :: (l ++ [q]) from rfl]
    simp [List.dropWhile_cons, hq]
  have h2 : (q :: l ++ [q] : Str).reverse = q :: l.reverse ++ [q] := by
    simp
  have h3 : List.dropWhile isJsSpace (q :: l.reverse ++ [q]) = q :: l.reverse ++ [q] := by
    rw [show (q :: l.reverse ++ [q] : Str) = q :: (l.reverse ++ [q]) from rfl]
    simp [List.dropWhile_cons, hq]
  rw [jsTrim, h1, h2, h3, ← h2]
  simp

/-- C6: a whitelisted class name `w` is never a key of the Usage Count
Table nor of the Rename Table, and the rewrite passes of the three
surfaces all map an occurrence of `w` to itself: the HTML token rewrite
(`className in replacementNames` fails, so the token survives), the CSS
selector rewrite (the `.w` match text is kept), and the JS marker-argument
rewrite (a quoted argument `w` is returned unchanged, for either quote
style). -/
theorem c6_whitelist_never_renamed (html : Str) (cssFiles jsFiles : List (Str × Str))
    (whitelist : List Str) (w : Str) (hw : w ∈ whitelist) :
    w ∉ mapKeys (minifyUsageCounts html cssFiles jsFiles whitelist) ∧
    mapLookup (replacementNamesOf (minifyUsageCounts html cssFiles jsFiles whitelist)) w
      = none ∧
    (mapLookup (replacementNamesOf (minifyUsageCounts html cssFiles jsFiles whitelist)) w).getD w
      = w ∧
    cssClassRepl (replacementNamesOf (minifyUsageCounts html cssFiles jsFiles whitelist))
      ('.' :: w) w = '.' :: w ∧
    replaceCssClassName (dqChar :: w ++ [dqChar])
      (replacementNamesOf (minifyUsageCounts html cssFiles jsFiles whitelist))
      = dqChar :: w ++ [dqChar] ∧
    replaceCssClassName (sqChar :: w ++ [sqChar])
      (replacementNamesOf (minifyUsageCounts html cssFiles jsFiles whitelist))
      = sqChar :: w ++ [sqChar] := by
  have hcounts : w ∉ mapKeys (minifyUsageCounts html cssFiles jsFiles whitelist) :=
    not_mem_keys_foldl_addCssClass whitelist w hw _ [] (by simp [mapKeys])
  have hkeysne : ∀ e ∈ orderedUsageCount (minifyUsageCounts html cssFiles jsFiles whitelist),
      e.1 ≠ w := by
    intro e he heq
    have hmem : e ∈ minifyUsageCounts html cssFiles jsFiles whitelist :=
      (perm_orderedUsageCount _).mem_iff.mp he
    exact hcounts (heq ▸ List.mem_map_of_mem (fun e => e.1) hmem)
  have htable : mapLookup (replacementNamesOf (minifyUsageCounts html cssFiles jsFiles
      whitelist)) w = none := by
    rw [replacementNamesOf, lookup_assignAux_of_not_mem w _ hkeysne 0 []]
    rfl
  have htrimD := jsTrim_quoted dqChar (by decide) w
  have htrimS := jsTrim_quoted sqChar (by decide) w
  have hinnerD : ((dqChar :: (w ++ [dqChar])).drop 1).dropLast = w := by simp
  have hinnerS : ((sqChar :: (w ++ [sqChar])).drop 1).dropLast = w := by simp
  refine ⟨hcounts, htable, by rw [htable]; rfl, by rw [cssClassRepl, htable], ?_, ?_⟩
  · rw [show (dqChar :: w ++ [dqChar] : Str) = dqChar :: (w ++ [dqChar]) from rfl] at htrimD ⊢
    simp [replaceCssClassName, htrimD, hinnerD, htable]
  · rw [show (sqChar :: w ++ [sqChar] : Str) = sqChar :: (w ++ [sqChar]) from rfl] at htrimS ⊢
    simp [replaceCssClassName, htrimS, hinnerS, htable]

/-- Witness for C6 at a concrete document: the whitelisted name `keep` is
absent from the Usage Count Table and the CSS rewrite keeps `.keep`. -/
theorem c6_whitelist_never_renamed_witness :
    (lit "keep") ∉ mapKeys (minifyUsageCounts (lit "<div class=\"keep x\"/>")
      [(lit "/c.css", lit ".keep")] [] [lit "keep"]) ∧
    cssClassRepl (replacementNamesOf (minifyUsageCounts (lit "<div class=\"keep x\"/>")
      [(lit "/c.css", lit ".keep")] [] [lit "keep"]))
      ('.' :: lit "keep") (lit "keep") = '.' :: lit "keep" := by
  have h := c6_whitelist_never_renamed (lit "<div class=\"keep x\"/>")
    [(lit "/c.css", lit ".keep")] [] [lit "keep"] (lit "keep") (by decide)
  exact ⟨h.1, h.2.2.2.1⟩

/-! ## Ranking lemmas -/

theorem pairwise_sortInsertDesc (l : List (Str × Nat)) (e : Str × Nat)
    (hp : List.Pairwise (fun a b => b.2 ≤ a.2) l) :
    List.Pairwise (fun a b => b.2 ≤ a.2) (sortInsertDesc l e) := by
  induction l with
  | nil => simp [sortInsertDesc]
  | cons x xs ih =>
    obtain ⟨hx, hxs⟩ := List.pairwise_cons.mp hp
    by_cases hcmp : x.2 ≥ e.2
    · rw [show sortInsertDesc (x :: xs) e = x :: sortInsertDesc xs e from by
        simp [sortInsertDesc, hcmp]]
      rw [List.pairwise_cons]
      refine ⟨?_, ih hxs⟩
      intro b hb
      rcases (mem_sortInsertDesc xs e b).mp hb with rfl | hbxs
      · exact hcmp
      · exact hx b hbxs
    · rw [show sortInsertDesc (x :: xs) e = e :: x :: xs from by simp [sortInsertDesc, hcmp]]
      rw [List.pairwise_cons]
      refine ⟨?_, hp⟩
      intro b hb
      rcases List.mem_cons.mp hb with rfl | hbxs
      · omega
      · have := hx b hbxs
        omega

theorem pairwise_foldl_sortInsertDesc :
    ∀ (l acc : List (Str × Nat)), List.Pairwise (fun a b => b.2 ≤ a.2) acc →
      List.Pairwise (fun a b => b.2 ≤ a.2) (l.foldl sortInsertDesc acc) := by
  intro l
  induction l with
  | nil => intro acc h; exact h
  | cons e rest ih =>
    intro acc h
    exact ih (sortInsertDesc acc e) (pairwise_sortInsertDesc acc e h)

theorem pairwise_orderedUsageCount (counts : List (Str × Nat)) :
    List.Pairwise (fun a b => b.2 ≤ a.2) (orderedUsageCount counts) :=
  pairwise_foldl_sortInsertDesc counts [] (List.Pairwise.nil)

theorem filter_sortInsertDesc (c : Nat) (l : List (Str × Nat)) (e : Str × Nat)
    (hp : List.Pairwise (fun a b => b.2 ≤ a.2) l) :
    (sortInsertDesc l e).filter (fun x => x.2 = c)
      = l.filter (fun x => x.2 = c) ++ (if e.2 = c then [e] else []) := by
  induction l with
  | nil =>
    by_cases pe : e.2 = c <;> simp [sortInsertDesc, List.filter_cons, pe]
  | cons x xs ih =>
    obtain ⟨hx, hxs⟩ := List.pairwise_cons.mp hp
    by_cases hcmp : x.2 ≥ e.2
    · rw [show sortInsertDesc (x :: xs) e = x :: sortInsertDesc xs e from by
        simp [sortInsertDesc, hcmp]]
      rw [List.filter_cons, List.filter_cons, ih hxs]
      by_cases px : x.2 = c <;> simp [px]
    · rw [show sortInsertDesc (x :: xs) e = e :: x :: xs from by simp [sortInsertDesc, hcmp]]
      by_cases pe : e.2 = c
      · have hnil : (x :: xs).filter (fun a => a.2 = c) = [] := by
          rw [List.filter_eq_nil_iff]
          intro a ha
          rcases List.mem_cons.mp ha with rfl | haxs
          · simp only [decide_eq_true_eq]
            omega
          · have := hx a haxs
            simp only [decide_eq_true_eq]
            omega
        simp [List.filter_cons, pe, hnil]
      · simp [List.filter_cons, pe]

theorem filter_foldl_sortInsertDesc (c : Nat) :
    ∀ (l acc : List (Str × Nat)), List.Pairwise (fun a b => b.2 ≤ a.2) acc →
      (l.foldl sortInsertDesc acc).filter (fun x => x.2 = c)
        = acc.filter (fun x => x.2 = c) ++ l.filter (fun x => x.2 = c) := by
  intro l
  induction l with
  | nil => intro acc _; simp
  | cons e rest ih =>
    intro acc h
    rw [show (e :: rest).foldl sortInsertDesc acc
        = rest.foldl sortInsertDesc (sortInsertDesc acc e) from rfl]
    rw [ih (sortInsertDesc acc e) (pairwise_sortInsertDesc acc e h)]
    rw [filter_sortInsertDesc c acc e h, List.filter_cons]
    by_cases pe : e.2 = c <;> simp [pe]

theorem lookup_assignAux_get :
    ∀ (l : List (Str × Nat)), (l.map (fun e => e.1)).Nodup →
      ∀ (i : Nat) (m : List (Str × Str)) (j : Nat) (hj : j < l.length),
        mapLookup (assignAux i l m) (l.get ⟨j, hj⟩).1
          = some (createStringGeneratorValue (i + j)) := by
  intro l
  induction l with
  | nil => intro _ i m j hj; simp at hj
  | cons e rest ih =>
    intro hnd i m j hj
    rw [show assignAux i (e :: rest) m
        = assignAux (i + 1) rest (mapInsert m e.1 (createStringGeneratorValue i)) from rfl]
    rw [List.map_cons] at hnd
    obtain ⟨hne, hrest⟩ := List.nodup_cons.mp hnd
    cases j with
    | zero =>
      have hnotin : ∀ e' ∈ rest, e'.1 ≠ e.1 := by
        intro e' he' heq
        exact hne (heq ▸ List.mem_map_of_mem (fun x => x.1) he')
      rw [show ((e :: rest).get ⟨0, hj⟩).1 = e.1 from rfl]
      rw [lookup_assignAux_of_not_mem e.1 rest hnotin (i + 1) _]
      rw [mapLookup_mapInsert_self]
      rfl
    | succ j' =>
      have hj' : j' < rest.length := by simpa using hj
      have hrec := ih hrest (i + 1) (mapInsert m e.1 (createStringGeneratorValue i)) j' hj'
      have harith : (i + 1) + j' = i + (j' + 1) := by omega
      rw [show ((e :: rest).get ⟨j' + 1, hj⟩) = rest.get ⟨j', hj'⟩ from rfl]
      rw [hrec, harith]

/-- C5: the renaming assignment is deterministic.  The ranked list is
sorted by weakly descending usage count; it is the stable such ordering
(for every count value, the entries carrying that count appear exactly in
their first-encounter order); and the `j`-th ranked name receives the
`j`-th identifier-generator value.  In particular, for usage counts
`a : 3, b : 3, c : 1` encountered in the order `a, b, c`, the names `a`
and `b` receive the first two one-letter identifiers in that order and
`c` receives the third. -/
theorem c5_ranking_deterministic :
    (∀ counts : List (Str × Nat),
      List.Pairwise (fun a b => b.2 ≤ a.2) (orderedUsageCount counts)) ∧
    (∀ (counts : List (Str × Nat)) (c : Nat),
      (orderedUsageCount counts).filter (fun x => x.2 = c)
        = counts.filter (fun x => x.2 = c)) ∧
    (∀ counts : List (Str × Nat), (mapKeys counts).Nodup →
      ∀ (j : Nat) (hj : j < (orderedUsageCount counts).length),
        mapLookup (replacementNamesOf counts) ((orderedUsageCount counts).get ⟨j, hj⟩).1
          = some (createStringGeneratorValue j)) ∧
    minifyUsageCounts (lit "<div class=\"a a a b b b c\"/>") [] [] []
      = [(lit "a", 3), (lit "b", 3), (lit "c", 1)] ∧
    replacementNamesOf [(lit "a", 3), (lit "b", 3), (lit "c", 1)]
      = [(lit "a", lit "a"), (lit "b", lit "b"), (lit "c", lit "c")] := by
  refine ⟨pairwise_orderedUsageCount, ?_, ?_, by decide, by decide⟩
  · intro counts c
    simpa [orderedUsageCount] using filter_foldl_sortInsertDesc c counts [] List.Pairwise.nil
  · intro counts hnd j hj
    have hperm : List.Perm (orderedUsageCount counts) counts := perm_orderedUsageCount counts
    rw [show mapKeys counts = counts.map (fun e => e.1) from rfl] at hnd
    have hnd' : ((orderedUsageCount counts).map (fun e => e.1)).Nodup :=
      ((hperm.map (fun e => e.1)).nodup_iff).mpr hnd
    rw [replacementNamesOf]
    simpa using lookup_assignAux_get (orderedUsageCount counts) hnd' 0 [] j hj

/-- Witness for C5's ranked-assignment part at the concrete counts
`x : 3, y : 3, z : 1`: the third ranked name `z` receives the third
generator value `c`. -/
theorem c5_ranking_deterministic_witness :
    mapLookup (replacementNamesOf [(lit "x", 3), (lit "y", 3), (lit "z", 1)])
      ((orderedUsageCount [(lit "x", 3), (lit "y", 3), (lit "z", 1)]).get
        ⟨2, by decide⟩).1 = some (createStringGeneratorValue 2) := by
  exact c5_ranking_deterministic.2.2.1 [(lit "x", 3), (lit "y", 3), (lit "z", 1)]
    (by decide) 2 (by decide)
